import Mathlib

/-!
Verification development for the `code-analyze` Lambda of the SoftBank-BE
repository (`src/code-analyze/code-analysis.py`).

Texts (Python `str` values) are modelled as lists of Unicode code points
(`List Char`); UTF-8 byte lengths are computed from the code points exactly as
CPython's `str.encode("utf-8")` does.  Paths are texts.  Python dicts are
modelled as insertion-ordered association lists, Python sets as
insertion-ordered duplicate-free lists (only membership is relied upon).
The Bedrock network call and the regular-expression engine are modelled as
explicit parameters; everything else is translated directly from the source.
-/

namespace CodeAnalysis

abbrev Text := List Char

/-- UTF-8 byte width of one code point, as in CPython's UTF-8 encoder and
Lean's `Char.utf8Size`. -/
def utf8Width (c : Char) : Nat :=
  if c.toNat < 128 then 1
  else if c.toNat < 2048 then 2
  else if c.toNat < 65536 then 3
  else 4

/-- Byte length of the UTF-8 encoding of a text (`len(t.encode("utf-8"))`). -/
def encLen (t : Text) : Nat := (t.map utf8Width).sum

/-- `t.encode("utf-8")[:n].decode("utf-8", errors="ignore")` for a valid
code-point sequence: keep the longest code-point prefix whose encoding fits in
`n` bytes (the code point straddling the cut is discarded). -/
def takeBytes : Nat → Text → Text
  | _, [] => []
  | n, c :: cs => if utf8Width c ≤ n then c :: takeBytes (n - utf8Width c) cs else []

/-- Does text `s` start with `p`? (`str.startswith`). -/
def startsWithT : Text → Text → Bool
  | _, [] => true
  | [], _ :: _ => false
  | c :: cs, p :: ps => c = p && startsWithT cs ps

/-- Does text `s` end with `p`? (`str.endswith`). -/
def endsWithT (s p : Text) : Bool := startsWithT s.reverse p.reverse

/-- Does `needle` occur as a contiguous substring of `hay`? (Python `in`). -/
def hasSub : Text → Text → Bool
  | hay, needle =>
    if startsWithT hay needle then true
    else match hay with
      | [] => false
      | _ :: rest => hasSub rest needle

/-- `str.split(sep)` for a one-character separator: `"" ↦ [""]`,
`"a/" ↦ ["a", ""]`. -/
def splitSepGo (sep : Char) : Text → Text → List Text
  | [], acc => [acc.reverse]
  | c :: rest, acc =>
    if c = sep then acc.reverse :: splitSepGo sep rest []
    else splitSepGo sep rest (c :: acc)

def splitSep (sep : Char) (t : Text) : List Text := splitSepGo sep t []

/-- Python `str.splitlines` recognises these line boundaries. -/
def isLineBreak (c : Char) : Bool :=
  c.toNat = 10 || c.toNat = 11 || c.toNat = 12 || c.toNat = 13 ||
  c.toNat = 28 || c.toNat = 29 || c.toNat = 30 || c.toNat = 133 ||
  c.toNat = 8232 || c.toNat = 8233

def splitlinesGo : Text → Text → List Text
  | [], acc => [acc.reverse]
  | '\x0d' :: '\x0a' :: rest, acc =>
    if rest = [] then [acc.reverse] else acc.reverse :: splitlinesGo rest []
  | c :: rest, acc =>
    if isLineBreak c then
      (if rest = [] then [acc.reverse] else acc.reverse :: splitlinesGo rest [])
    else splitlinesGo rest (c :: acc)

/-- Python `str.splitlines`: terminators are not kept, a trailing terminator
does not produce a final empty line, and `"".splitlines() == []`. -/
def splitlines (t : Text) : List Text := if t = [] then [] else splitlinesGo t []

/-- The newline character, named so concrete texts stay readable. -/
def newlineChar : Char := '\x0a'

/-- `"\n".join(lines)`. -/
def joinNL : List Text → Text
  | [] => []
  | [l] => l
  | l :: l2 :: rest => l ++ newlineChar :: joinNL (l2 :: rest)

/-- ASCII lower-casing of one character; agrees with `str.lower` on the ASCII
range, which is the only range the analysed constants use. -/
def pyLowerChar (c : Char) : Char :=
  if 65 ≤ c.toNat ∧ c.toNat ≤ 90 then Char.ofNat (c.toNat + 32) else c

def toLowerT (t : Text) : Text := t.map pyLowerChar

/-- Membership of a text in a list of texts, as a Boolean. -/
def memT (x : Text) (l : List Text) : Bool := l.any (fun y => x == y)

/-- Last element of a list of texts, `[]` when empty. -/
def lastD : List Text → Text
  | [] => []
  | [x] => x
  | _ :: x :: xs => lastD (x :: xs)

/-- `str.lstrip` for a single character. -/
def lstripChar (c : Char) : Text → Text
  | [] => []
  | x :: xs => if x = c then lstripChar c xs else x :: xs

/-- `str.rstrip` for a single character. -/
def rstripChar (c : Char) (t : Text) : Text := (lstripChar c t.reverse).reverse

-- ====== Limits (== Config constants of code-analysis.py) ======

def MAX_FILES_PER_PROJECT : Nat := 50
def MAX_TOTAL_FILES : Nat := 120
def MAX_BYTES_PER_FILE : Nat := 16000
def MAX_TOTAL_BYTES : Nat := 350000
def MAX_LINE_CHARS : Nat := 200
def PAYLOAD_SOFT_CAP_BYTES : Nat := 1200000

def SKIP_DIRS : List Text :=
  [("node_modules").data, (".git").data, (".idea").data, (".vscode").data,
   ("build").data, ("dist").data, ("target").data, (".gradle").data,
   (".next").data, (".cache").data, (".turbo").data, ("__MACOSX").data]

def SKIP_PREFIXES : List Text := [("./").data, ("._").data]

def SENSITIVE_KEYS : List Text :=
  [("secret").data, ("password").data, ("passwd").data, ("token").data,
   ("apikey").data, ("access_key").data, ("secret_key").data]

def PROJECT_ROOT_MARKERS : List Text :=
  [("package.json").data, ("pom.xml").data, ("build.gradle").data,
   ("build.gradle.kts").data, ("settings.gradle").data,
   ("settings.gradle.kts").data, ("requirements.txt").data,
   ("pyproject.toml").data, ("go.mod").data, ("Gemfile").data,
   ("Cargo.toml").data, ("Dockerfile").data, ("docker-compose.yml").data,
   ("docker-compose.yaml").data, ("main.tf").data, ("versions.tf").data]

def SIGNAL_BASENAMES : List Text :=
  [("package.json").data, ("pnpm-lock.yaml").data, ("yarn.lock").data,
   ("pom.xml").data, ("build.gradle").data, ("build.gradle.kts").data,
   ("settings.gradle").data, ("settings.gradle.kts").data,
   ("requirements.txt").data, ("pyproject.toml").data, ("Pipfile").data,
   ("Pipfile.lock").data, ("go.mod").data, ("Gemfile").data,
   ("Cargo.toml").data, ("Cargo.lock").data, ("Dockerfile").data,
   ("docker-compose.yml").data, ("docker-compose.yaml").data,
   (".gitlab-ci.yml").data, (".travis.yml").data, ("cdk.json").data]

def SIGNAL_SUFFIXES : List Text :=
  [(".tf").data, (".tfvars").data, (".tf.json").data, (".tfvars.json").data,
   (".yaml").data, (".yml").data, (".properties").data]

def SIGNAL_PATH_PARTS : List Text := [(".github/workflows").data, ("src/main/resources").data]

-- ====== posixpath primitives used by the handler ======

/-- `posixpath.basename`: the part after the last `/`. -/
def basename (p : Text) : Text := lastD (splitSep '/' p)

/-- `posixpath.dirname`: the part before the last `/`, with trailing slashes
stripped unless the result consists only of slashes; `""` when there is no
`/`. -/
def dirname (p : Text) : Text :=
  let parts := splitSep '/' p
  if parts.length ≤ 1 then []
  else
    let head := List.intercalate [('/')] parts.dropLast ++ [('/')]
    if head.all (fun c => c = '/') then head else rstripChar '/' head

/-- The component normalisation loop of `posixpath.normpath`; the accumulator
holds the kept components in reverse. -/
def normComps (slashes : Nat) : List Text → List Text → List Text
  | [], racc => racc.reverse
  | comp :: rest, racc =>
    if comp = [] ∨ comp = (".").data then normComps slashes rest racc
    else if comp ≠ ("..").data ∨ (slashes = 0 ∧ racc = []) ∨ racc.headD [] = ("..").data then
      normComps slashes rest (comp :: racc)
    else
      match racc with
      | _ :: rt => normComps slashes rest rt
      | [] => normComps slashes rest racc

/-- `posixpath.normpath`. -/
def normpath (p : Text) : Text :=
  if p = [] then (".").data
  else
    let slashes : Nat :=
      if startsWithT p (("//").data) ∧ ¬ startsWithT p (("///").data) then 2
      else if startsWithT p (("/").data) then 1 else 0
    let comps := normComps slashes (splitSep '/' p) []
    let res := List.replicate slashes '/' ++ List.intercalate [('/')] comps
    if res = [] then (".").data else res

/-- Extension part of `posixpath.splitext`: from the last dot of the basename,
provided a non-dot character precedes it within the basename. -/
def extGo : Text → Text → Text
  | [], _ => []
  | '.' :: rest, acc => if rest.any (fun c => c ≠ '.') then '.' :: acc else []
  | c :: rest, acc => extGo rest (c :: acc)

def splitextExt (p : Text) : Text := extGo (basename p).reverse []

-- ====== Path classifier (should_skip_path / is_signal_path) ======

/-- `should_skip_path` of code-analysis.py. -/
def should_skip_path (path : Text) : Bool :=
  let norm := lstripChar '/' (normpath path)
  if endsWithT norm (("/").data) then true
  else if SKIP_PREFIXES.any (fun q => startsWithT norm q) then true
  else if (splitSep '/' norm).dropLast.any (fun part => memT part SKIP_DIRS) then true
  else if startsWithT (basename norm) (("._").data) then true
  else false

/-- `is_signal_path` of code-analysis.py. -/
def is_signalB (path : Text) : Bool :=
  let b := basename path
  if memT b SIGNAL_BASENAMES then true
  else if startsWithT b (("Dockerfile").data) then true
  else if startsWithT (toLowerT b) (("readme").data) then true
  else if startsWithT b (("application").data) ∧
          (endsWithT b ((".yml").data) ∨ endsWithT b ((".yaml").data) ∨
           endsWithT b ((".properties").data)) then true
  else if SIGNAL_SUFFIXES.any (fun s => endsWithT b s) then true
  else (SIGNAL_PATH_PARTS.any (fun q => memT q (splitSep '/' path)))

-- sanity checks against the CPython behaviour of the mirrored primitives
example : normpath (("a/b/c/../../d").data) = ("a/d").data := by decide
example : normpath (("//a").data) = ("//a").data := by decide
example : normpath (("///a/").data) = ("/a").data := by decide
example : normpath [] = (".").data := by decide
example : dirname (("a//b").data) = ("a").data := by decide
example : dirname (("/a").data) = ("/").data := by decide
example : dirname (("package.json").data) = [] := by decide
example : basename (("a/b/").data) = [] := by decide
example : splitextExt ((".env").data) = [] := by decide
example : splitextExt (("a/b.tf.json").data) = ((".json").data) := by decide
example : splitextExt (("f.").data) = ((".").data) := by decide
example : should_skip_path (("a/node_modules/b.js").data) = true := by decide
example : should_skip_path (("node_modules").data) = false := by decide
example : should_skip_path (("./a/b.py").data) = false := by decide
example : should_skip_path (("._foo").data) = true := by decide
example : is_signalB (("src/main/resources/x.txt").data) = false := by decide
example : is_signalB (("a/application-prod.yml").data) = true := by decide
example : is_signalB (("a/Dockerfile.dev").data) = true := by decide
example : is_signalB (("x/README.md").data) = true := by decide
example : is_signalB (("x/app.py").data) = false := by decide

-- ====== Content sanitizer (redact_secrets / strip_comments_and_minify) ======

/-- `any(k in l for k in SENSITIVE_KEYS)` on the lower-cased line. -/
def sensitiveLineB (line : Text) : Bool :=
  SENSITIVE_KEYS.any (fun k => hasSub (toLowerT line) k)

/-- One line of `redact_secrets`: a line whose lower-casing contains a
sensitive-key substring keeps only the part before the first `=` (or, failing
that, the first `:`) and gets the redaction marker; otherwise it passes
through. -/
def redactLine (line : Text) : Text :=
  if sensitiveLineB line then
    if line.any (fun c => c = '=') then
      line.takeWhile (fun c => c ≠ '=') ++ ("=***REDACTED***").data
    else if line.any (fun c => c = ':') then
      line.takeWhile (fun c => c ≠ ':') ++ (": ***REDACTED***").data
    else ("***REDACTED LINE***").data
  else line

/-- `redact_secrets` of code-analysis.py: redact line by line and re-join with
newlines. -/
def redact_secrets (t : Text) : Text := joinNL ((splitlines t).map redactLine)

/-- The characters matched by `\s` in CPython's `re` on `str` patterns; the
same set as `str.isspace`, which `str.strip` uses. -/
def isPySpace (c : Char) : Bool :=
  (9 ≤ c.toNat && c.toNat ≤ 13) || (28 ≤ c.toNat && c.toNat ≤ 32) ||
  c.toNat = 133 || c.toNat = 160 || c.toNat = 5760 ||
  (8192 ≤ c.toNat && c.toNat ≤ 8202) || c.toNat = 8232 || c.toNat = 8233 ||
  c.toNat = 8239 || c.toNat = 8287 || c.toNat = 12288

/-- Collapse adjacent duplicate spaces (the run-squeezing half of
`re.sub(r"\s+", " ", line)`). -/
def squeezeSpaces : Text → Text
  | [] => []
  | [c] => [c]
  | c :: d :: rest =>
    if c = ' ' ∧ d = ' ' then squeezeSpaces (d :: rest)
    else c :: squeezeSpaces (d :: rest)

/-- `re.sub(r"\s+", " ", line)`: every maximal whitespace run becomes one
space. -/
def collapseWs (line : Text) : Text :=
  squeezeSpaces (line.map (fun c => if isPySpace c then ' ' else c))

/-- `str.strip()`. -/
def stripPy (t : Text) : Text :=
  ((t.dropWhile (fun c => isPySpace c)).reverse.dropWhile (fun c => isPySpace c)).reverse

/-- The marker appended to a line cut at `MAX_LINE_CHARS`. -/
def ELLIPSIS_MARK : Text := (" …").data

/-- The marker line appended whenever a snippet is cut at a byte budget. -/
def TRUNC_MARKER : Text := ("\n… [TRUNCATED]").data

def minifyLine (line : Text) : Text := stripPy (collapseWs line)

def capLine (line : Text) : Text :=
  if line.length > MAX_LINE_CHARS then line.take MAX_LINE_CHARS ++ ELLIPSIS_MARK else line

/-- The per-line loop and join of `strip_comments_and_minify` (after the
comment regex has been applied). -/
def minifyText (text : Text) : Text :=
  joinNL ((((splitlines text).map minifyLine).filter (fun l => !l.isEmpty)).map capLine)

/-- The final per-file byte cap of `strip_comments_and_minify`. -/
def capFileBytes (out : Text) : Text :=
  if encLen out > MAX_BYTES_PER_FILE then takeBytes MAX_BYTES_PER_FILE out ++ TRUNC_MARKER
  else out

/-- `ext.lower().lstrip(".")`, the `COMMENT_RE` lookup key. -/
def langKey (ext : Text) : Text := lstripChar '.' (toLowerT ext)

/-- `strip_comments_and_minify`.  The table `COMMENT_RE` of compiled regexes
is modelled by the parameter `csub`, mapping the language key to the
substitution `rx.sub("", ·)` it performs; for any key not in the table the
source's entry is the pattern `r"$^"`, which matches nothing (it can only
match at a position that is both at the end and at the start of a line in the
same place inside a non-empty string), so the substitution for such keys is
the identity function. -/
def strip_comments_and_minify (csub : Text → Text → Text) (text : Text) (ext : Text) : Text :=
  capFileBytes (minifyText (csub (langKey ext) text))

/-- `strip_and_cap_bytes`, starting from the already-decoded text (the
`bytes.decode("utf-8", errors="replace")` step maps the raw bytes to the text
the rest of the pipeline sees). -/
def strip_and_cap_bytes (csub : Text → Text → Text) (content : Text) (ext : Text) : Text :=
  strip_comments_and_minify csub (redact_secrets content) ext

example : redact_secrets (("AWS_SECRET_KEY=abcd1234").data)
    = ("AWS_SECRET_KEY=***REDACTED***").data := by decide
example : redact_secrets (("db_password: hunter2").data)
    = ("db_password: ***REDACTED***").data := by decide
example : redact_secrets (("my token here").data) = ("***REDACTED LINE***").data := by decide
example : redact_secrets (("a=1\nTOKEN=x\nb=2").data) = ("a=1\nTOKEN=***REDACTED***\nb=2").data := by decide
example : minifyLine (("  a   b\x09c  ").data) = ("a b c").data := by decide
example : minifyText (("x\n\n  \ny").data) = ("x\ny").data := by decide
example : encLen (("… [TRUNCATED]").data) = 15 := by decide
example : encLen TRUNC_MARKER = 16 := by decide

-- ====== Project detection (detect_project_roots) ======

/-- The dictionary `{project_root_path: set_of_files}` is modelled as an
insertion-ordered association list (CPython dicts preserve insertion order);
the file sets are insertion-ordered duplicate-free lists. -/
abbrev RootDict := List (Text × List Text)

/-- Does a path qualify in `detect_project_roots`? (both stages re-check
`should_skip_path(path) or path.endswith("/")`). -/
def qualifiesB (p : Text) : Bool := !(should_skip_path p) && !(endsWithT p (("/").data))

/-- `posixpath.dirname(path) or "."`: the directory a marker file registers. -/
def markerDir (p : Text) : Text := if dirname p = [] then (".").data else dirname p

/-- Stage 1 of `detect_project_roots`: register the directory of every
qualifying path whose basename is a project-root marker, deduplicated, in
first-occurrence order. -/
def registerRoots : List Text → RootDict → RootDict
  | [], acc => acc
  | p :: rest, acc =>
    if ¬ qualifiesB p then registerRoots rest acc
    else if memT (basename p) PROJECT_ROOT_MARKERS then
      if acc.any (fun kv => kv.1 == markerDir p) then registerRoots rest acc
      else registerRoots rest (acc ++ [(markerDir p, [])])
    else registerRoots rest acc

/-- The prefix test of stage 2:
`root == "." or path.startswith(root + "/") or path == root`. -/
def rootMatchesB (root p : Text) : Bool :=
  root == (".").data || startsWithT p (root ++ [('/')]) || p == root

/-- `root.count("/")`, the depth measure used by stage 2. -/
def countSlash (t : Text) : Nat := (t.filter (fun c => c = '/')).length

/-- The inner loop of stage 2: scan the registered roots in insertion order
carrying the state `(assigned_root, max_depth)`; a matching root replaces the
state only on a strictly greater slash count (`depth > max_depth`), and
`max_depth` starts at `-1` so the first match always wins over "no root". -/
def assignGo (path : Text) : List Text → Option Text × Int → Option Text × Int
  | [], st => st
  | root :: rest, st =>
    if rootMatchesB root path ∧ (countSlash root : Int) > st.2 then
      assignGo path rest (some root, (countSlash root : Int))
    else assignGo path rest st

/-- The root a path is assigned to, if any.  (`if assigned_root:` in the
source is an emptiness test; registered roots are never the empty string
because an empty dirname is replaced by `"."`, so truthiness coincides with
`isSome`.) -/
def assignRoot (path : Text) (roots : List Text) : Option Text :=
  (assignGo path roots (none, -1)).1

/-- Add a path to a root's file set (`project_roots[assigned_root].add(path)`). -/
def addToRoot (acc : RootDict) (root p : Text) : RootDict :=
  acc.map (fun kv => if kv.1 == root then (kv.1, if memT p kv.2 then kv.2 else kv.2 ++ [p]) else kv)

/-- Stage 2 of `detect_project_roots`: assign every qualifying path to the
matching registered root of greatest depth. -/
def assignAll (roots : RootDict) : List Text → RootDict
  | [] => roots
  | p :: rest =>
    if ¬ qualifiesB p then assignAll roots rest
    else
      match assignRoot p (roots.map Prod.fst) with
      | some r => assignAll (addToRoot roots r p) rest
      | none => assignAll roots rest

/-- The registered-roots dictionary after stage 1, with the sentinel root
`"."` substituted when no marker was found. -/
def rootsSeed (all_paths : List Text) : RootDict :=
  let roots0 := registerRoots all_paths []
  if roots0.isEmpty then [((".").data, ([] : List Text))] else roots0

/-- The registered project roots of an archive, in registration order. -/
def registeredRootsOf (all_paths : List Text) : List Text :=
  (rootsSeed all_paths).map Prod.fst

/-- `detect_project_roots` of code-analysis.py. -/
def detect_project_roots (all_paths : List Text) : RootDict :=
  (assignAll (rootsSeed all_paths) all_paths).filter (fun kv => !kv.2.isEmpty)

-- the spec's scenario 8: two sibling roots, two files each
example : detect_project_roots
    [("app/package.json").data, ("app/src/index.js").data,
     ("infra/main.tf").data, ("infra/variables.tf").data]
    = [(("app").data, [("app/package.json").data, ("app/src/index.js").data]),
       (("infra").data, [("infra/main.tf").data, ("infra/variables.tf").data])] := by decide

-- no markers at all: everything falls to the sentinel root "."
example : detect_project_roots [("a.txt").data, ("b/c.txt").data]
    = [((".").data, [("a.txt").data, ("b/c.txt").data])] := by decide

-- ====== Lemmas: the stage-2 scan of detect_project_roots ======

lemma memT_iff (x : Text) (l : List Text) : memT x l = true ↔ x ∈ l := by
  simp [memT, List.any_eq_true, beq_iff_eq]

/-- Invariant of the stage-2 scan state: either nothing has matched yet, or
the state holds a matching root from `S` together with its slash count. -/
def StOk (path : Text) (S : List Text) (st : Option Text × Int) : Prop :=
  (st.1 = none ∧ st.2 = -1) ∨
  (∃ r, st.1 = some r ∧ st.2 = (countSlash r : Int) ∧ rootMatchesB r path = true ∧ r ∈ S)

lemma assignGo_stOk (path : Text) (S : List Text) :
    ∀ (roots : List Text) (st : Option Text × Int), (∀ r ∈ roots, r ∈ S) →
      StOk path S st → StOk path S (assignGo path roots st) := by
  intro roots
  induction roots with
  | nil => intro st _ h; simpa [assignGo] using h
  | cons root rest ih =>
    intro st hsub h
    by_cases hc : rootMatchesB root path = true ∧ (countSlash root : Int) > st.2
    · rw [assignGo, if_pos hc]
      exact ih _ (fun r hr => hsub r (List.mem_cons_of_mem _ hr))
        (Or.inr ⟨root, rfl, rfl, hc.1, hsub root (List.mem_cons_self _ _)⟩)
    · rw [assignGo, if_neg hc]
      exact ih _ (fun r hr => hsub r (List.mem_cons_of_mem _ hr)) h

lemma assignGo_depth_mono (path : Text) :
    ∀ (roots : List Text) (st : Option Text × Int), st.2 ≤ (assignGo path roots st).2 := by
  intro roots
  induction roots with
  | nil => intro st; simp [assignGo]
  | cons root rest ih =>
    intro st
    by_cases hc : rootMatchesB root path = true ∧ (countSlash root : Int) > st.2
    · rw [assignGo, if_pos hc]
      exact le_trans (le_of_lt hc.2) (ih _)
    · rw [assignGo, if_neg hc]
      exact ih st

lemma assignGo_depth_ge (path : Text) :
    ∀ (roots : List Text) (st : Option Text × Int) (r' : Text), r' ∈ roots →
      rootMatchesB r' path = true → (countSlash r' : Int) ≤ (assignGo path roots st).2 := by
  intro roots
  induction roots with
  | nil => intro st r' h; exact absurd h (List.not_mem_nil r')
  | cons root rest ih =>
    intro st r' hmem hmatch
    rcases List.mem_cons.mp hmem with rfl | hmem2
    · by_cases hc : rootMatchesB r' path = true ∧ (countSlash r' : Int) > st.2
      · rw [assignGo, if_pos hc]
        exact assignGo_depth_mono path rest _
      · have hle : (countSlash r' : Int) ≤ st.2 := by
          by_contra hgt
          exact hc ⟨hmatch, lt_of_not_le hgt⟩
        rw [assignGo, if_neg hc]
        exact le_trans hle (assignGo_depth_mono path rest st)
    · by_cases hc : rootMatchesB root path = true ∧ (countSlash root : Int) > st.2
      · rw [assignGo, if_pos hc]; exact ih _ r' hmem2 hmatch
      · rw [assignGo, if_neg hc]; exact ih _ r' hmem2 hmatch

/-- An assigned root matches the path, is registered, and has maximal slash
count among the matching registered roots. -/
lemma assignRoot_spec (path : Text) (roots : List Text) (r : Text)
    (h : assignRoot path roots = some r) :
    rootMatchesB r path = true ∧ r ∈ roots ∧
      ∀ r' ∈ roots, rootMatchesB r' path = true → countSlash r' ≤ countSlash r := by
  have hok := assignGo_stOk path roots roots (none, -1) (fun _ hr => hr) (Or.inl ⟨rfl, rfl⟩)
  rcases hok with ⟨h1, _⟩ | ⟨r0, h1, h2, h3, h4⟩
  · rw [assignRoot, h1] at h; cases h
  · rw [assignRoot, h1] at h
    injection h with h5
    subst h5
    refine ⟨h3, h4, fun r' hr' hm' => ?_⟩
    have := assignGo_depth_ge path roots (none, -1) r' hr' hm'
    rw [h2] at this
    exact_mod_cast this

/-- If any registered root matches, the scan assigns some root. -/
lemma assignRoot_isSome_of_match (path : Text) (roots : List Text) (r' : Text)
    (h1 : r' ∈ roots) (h2 : rootMatchesB r' path = true) :
    ∃ r, assignRoot path roots = some r := by
  have hge := assignGo_depth_ge path roots (none, -1) r' h1 h2
  have hok := assignGo_stOk path roots roots (none, -1) (fun _ hr => hr) (Or.inl ⟨rfl, rfl⟩)
  rcases hok with ⟨_, h4⟩ | ⟨r, h3, _, _, _⟩
  · exfalso
    rw [h4] at hge
    have : (0 : Int) ≤ (countSlash r' : Int) := Int.natCast_nonneg _
    omega
  · exact ⟨r, by rw [assignRoot, h3]⟩

-- ====== Lemmas: the dictionary fold of detect_project_roots ======

lemma addToRoot_keys (acc : RootDict) (root p : Text) :
    (addToRoot acc root p).map Prod.fst = acc.map Prod.fst := by
  induction acc with
  | nil => rfl
  | cons kv rest ih =>
    simp only [addToRoot, List.map_cons] at ih ⊢
    by_cases h : kv.1 == root
    · rw [if_pos h]; rw [ih]
    · rw [if_neg h]; rw [ih]

lemma addToRoot_mem_origin (acc : RootDict) (root p : Text) (kv' : Text × List Text)
    (h : kv' ∈ addToRoot acc root p) :
    ∃ kv ∈ acc, kv'.1 = kv.1 ∧
      (kv'.2 = kv.2 ∨ (kv.1 = root ∧ kv'.2 = kv.2 ++ [p])) := by
  rcases List.mem_map.mp h with ⟨kv, hkv, hmap⟩
  by_cases hb : kv.1 == root
  · rw [if_pos hb] at hmap
    by_cases hm : memT p kv.2
    · rw [if_pos hm] at hmap
      exact ⟨kv, hkv, by rw [← hmap], Or.inl (by rw [← hmap])⟩
    · rw [if_neg hm] at hmap
      exact ⟨kv, hkv, by rw [← hmap], Or.inr ⟨eq_of_beq hb, by rw [← hmap]⟩⟩
  · rw [if_neg hb] at hmap
    exact ⟨kv, hkv, by rw [← hmap], Or.inl (by rw [← hmap])⟩

lemma addToRoot_adds (acc : RootDict) (root p : Text) (kv0 : Text × List Text)
    (h : kv0 ∈ acc) (hk : kv0.1 = root) :
    ∃ kv' ∈ addToRoot acc root p, kv'.1 = root ∧ p ∈ kv'.2 := by
  have hb : (kv0.1 == root) = true := beq_iff_eq.mpr hk
  refine ⟨(kv0.1, if memT p kv0.2 then kv0.2 else kv0.2 ++ [p]), ?_, hk, ?_⟩
  · exact List.mem_map.mpr ⟨kv0, h, by rw [if_pos hb]⟩
  · by_cases hm : memT p kv0.2
    · rw [if_pos hm]; exact (memT_iff p kv0.2).mp hm
    · rw [if_neg hm]; exact List.mem_append_right _ (List.mem_singleton.mpr rfl)

lemma addToRoot_keeps (acc : RootDict) (root p : Text) (kv : Text × List Text) (q : Text)
    (h : kv ∈ acc) (hq : q ∈ kv.2) :
    ∃ kv' ∈ addToRoot acc root p, kv'.1 = kv.1 ∧ q ∈ kv'.2 := by
  by_cases hb : kv.1 == root
  · refine ⟨(kv.1, if memT p kv.2 then kv.2 else kv.2 ++ [p]),
      List.mem_map.mpr ⟨kv, h, by rw [if_pos hb]⟩, rfl, ?_⟩
    by_cases hm : memT p kv.2
    · rw [if_pos hm]; exact hq
    · rw [if_neg hm]; exact List.mem_append_left _ hq
  · exact ⟨kv, List.mem_map.mpr ⟨kv, h, by rw [if_neg hb]⟩, rfl, hq⟩

lemma assignAll_keys : ∀ (paths : List Text) (acc : RootDict),
    (assignAll acc paths).map Prod.fst = acc.map Prod.fst := by
  intro paths
  induction paths with
  | nil => intro acc; rfl
  | cons p rest ih =>
    intro acc
    by_cases hq : qualifiesB p = true
    · rw [assignAll, if_neg (by simp [hq])]
      rcases hr : assignRoot p (acc.map Prod.fst) with _ | r
      · rw [ih]
      · rw [ih, addToRoot_keys]
    · rw [assignAll, if_pos (by simp [hq])]
      exact ih acc

/-- Where a path in a final file set came from: it was already there, or it
is a qualifying processed path whose scan chose exactly this root. -/
lemma assignAll_mem_values : ∀ (paths : List Text) (acc : RootDict)
    (kv' : Text × List Text) (q : Text), kv' ∈ assignAll acc paths → q ∈ kv'.2 →
    (∃ kv ∈ acc, kv.1 = kv'.1 ∧ q ∈ kv.2) ∨
    (qualifiesB q = true ∧ q ∈ paths ∧ assignRoot q (acc.map Prod.fst) = some kv'.1) := by
  intro paths
  induction paths with
  | nil =>
    intro acc kv' q h hm
    exact Or.inl ⟨kv', h, rfl, hm⟩
  | cons p rest ih =>
    intro acc kv' q h hm
    by_cases hq : qualifiesB p = true
    · rw [assignAll, if_neg (by simp [hq])] at h
      rcases hr : assignRoot p (acc.map Prod.fst) with _ | r
      · rw [hr] at h
        rcases ih acc kv' q h hm with h2 | ⟨h2, h3, h4⟩
        · exact Or.inl h2
        · exact Or.inr ⟨h2, List.mem_cons_of_mem p h3, h4⟩
      · rw [hr] at h
        rcases ih _ kv' q h hm with ⟨kv, hkv, hfst, hqm⟩ | ⟨h2, h3, h4⟩
        · rcases addToRoot_mem_origin acc r p kv hkv with ⟨kv0, hkv0, hfst0, hval⟩
          rcases hval with hsame | ⟨hroot, happ⟩
          · exact Or.inl ⟨kv0, hkv0, by rw [← hfst0, hfst], by rw [← hsame]; exact hqm⟩
          · rw [happ] at hqm
            rcases List.mem_append.mp hqm with hin | hp
            · exact Or.inl ⟨kv0, hkv0, by rw [← hfst0, hfst], hin⟩
            · have hqp : q = p := List.mem_singleton.mp hp
              subst hqp
              refine Or.inr ⟨hq, List.mem_cons_self _ _, ?_⟩
              rw [hr, ← hfst, hfst0, hroot]
        · rw [addToRoot_keys] at h4
          exact Or.inr ⟨h2, List.mem_cons_of_mem p h3, h4⟩
    · rw [assignAll, if_pos (by simp [hq])] at h
      rcases ih acc kv' q h hm with h2 | ⟨h2, h3, h4⟩
      · exact Or.inl h2
      · exact Or.inr ⟨h2, List.mem_cons_of_mem p h3, h4⟩

/-- File-set membership is never lost by later steps of the fold. -/
lemma assignAll_keeps : ∀ (paths : List Text) (acc : RootDict)
    (kv : Text × List Text) (q : Text), kv ∈ acc → q ∈ kv.2 →
    ∃ kv' ∈ assignAll acc paths, kv'.1 = kv.1 ∧ q ∈ kv'.2 := by
  intro paths
  induction paths with
  | nil =>
    intro acc kv q h hm
    exact ⟨kv, h, rfl, hm⟩
  | cons p rest ih =>
    intro acc kv q h hm
    by_cases hq : qualifiesB p = true
    · rw [assignAll, if_neg (by simp [hq])]
      rcases hr : assignRoot p (acc.map Prod.fst) with _ | r
      · exact ih acc kv q h hm
      · rcases addToRoot_keeps acc r p kv q h hm with ⟨kv1, hkv1, hfst1, hq1⟩
        rcases ih _ kv1 q hkv1 hq1 with ⟨kv', hkv', hfst', hq'⟩
        exact ⟨kv', hkv', by rw [hfst', hfst1], hq'⟩
    · rw [assignAll, if_pos (by simp [hq])]
      exact ih acc kv q h hm

/-- A qualifying processed path whose scan finds a root lands in that root's
file set. -/
lemma assignAll_adds : ∀ (paths : List Text) (acc : RootDict) (q r : Text),
    q ∈ paths → qualifiesB q = true → assignRoot q (acc.map Prod.fst) = some r →
    ∃ kv' ∈ assignAll acc paths, kv'.1 = r ∧ q ∈ kv'.2 := by
  intro paths
  induction paths with
  | nil =>
    intro acc q r h
    exact absurd h (List.not_mem_nil q)
  | cons p rest ih =>
    intro acc q r hmem hq hr
    rcases List.mem_cons.mp hmem with rfl | hmem2
    · rw [assignAll, if_neg (by simp [hq]), hr]
      have hrk : r ∈ acc.map Prod.fst := (assignRoot_spec q (acc.map Prod.fst) r hr).2.1
      rcases List.mem_map.mp hrk with ⟨kv0, hkv0, hfst0⟩
      rcases addToRoot_adds acc r q kv0 hkv0 hfst0 with ⟨kv1, hkv1, hfst1, hq1⟩
      rcases assignAll_keeps rest _ kv1 q hkv1 hq1 with ⟨kv', hkv', hfst', hq'⟩
      exact ⟨kv', hkv', by rw [hfst', hfst1], hq'⟩
    · by_cases hqp : qualifiesB p = true
      · rw [assignAll, if_neg (by simp [hqp])]
        rcases hrp : assignRoot p (acc.map Prod.fst) with _ | r2
        · exact ih acc q r hmem2 hq hr
        · exact ih _ q r hmem2 hq (by rw [addToRoot_keys]; exact hr)
      · rw [assignAll, if_pos (by simp [hqp])]
        exact ih acc q r hmem2 hq hr

-- ====== Lemmas: stage 1 (registerRoots) and the seed dictionary ======

lemma registerRoots_values : ∀ (paths : List Text) (acc : RootDict),
    (∀ kv ∈ acc, kv.2 = ([] : List Text)) →
    ∀ kv ∈ registerRoots paths acc, kv.2 = ([] : List Text) := by
  intro paths
  induction paths with
  | nil => intro acc h kv hkv; exact h kv hkv
  | cons p rest ih =>
    intro acc h kv hkv
    rw [registerRoots] at hkv
    split_ifs at hkv
    · exact ih acc h kv hkv
    · refine ih _ ?_ kv hkv
      intro kv2 hkv2
      rcases List.mem_append.mp hkv2 with h2 | h2
      · exact h kv2 h2
      · rw [List.mem_singleton.mp h2]
    · exact ih acc h kv hkv
    · exact ih acc h kv hkv

lemma registerRoots_nodup : ∀ (paths : List Text) (acc : RootDict),
    (acc.map Prod.fst).Nodup → ((registerRoots paths acc).map Prod.fst).Nodup := by
  intro paths
  induction paths with
  | nil => intro acc h; exact h
  | cons p rest ih =>
    intro acc h
    rw [registerRoots]
    split_ifs with h1 h2 h3
    · exact ih acc h
    · refine ih _ ?_
      rw [List.map_append]
      rw [List.nodup_append]
      refine ⟨h, List.nodup_singleton _, ?_⟩
      intro a ha hb
      have hsome : ∃ kv ∈ acc, kv.1 = a := by
        rcases List.mem_map.mp ha with ⟨kv, hkv, hfst⟩
        exact ⟨kv, hkv, hfst⟩
      rcases hsome with ⟨kv, hkv, hfst⟩
      apply h3
      simp only [List.map_cons, List.map_nil, List.mem_singleton] at hb
      rw [List.any_eq_true]
      exact ⟨kv, hkv, beq_iff_eq.mpr (by rw [hfst, hb])⟩
    · exact ih acc h
    · exact ih acc h

lemma rootsSeed_values (paths : List Text) :
    ∀ kv ∈ rootsSeed paths, kv.2 = ([] : List Text) := by
  rw [rootsSeed]
  split_ifs
  · intro kv hkv
    rw [List.mem_singleton.mp hkv]
  · exact registerRoots_values paths [] (by intro kv h; cases h)

lemma rootsSeed_nodup (paths : List Text) : ((rootsSeed paths).map Prod.fst).Nodup := by
  rw [rootsSeed]
  split_ifs
  · simp
  · exact registerRoots_nodup paths [] (by simp)

-- ====== Claim C1 ======

/-- Claim C1 (amended): `detect_project_roots` assigns every qualifying
(non-skipped, non-directory) path that is matched by at least one registered
root to exactly one project root, namely a matching registered root of
maximal slash count (the sentinel root `"."`, when registered, matches every
path at slash count 0); the resulting file sets are pairwise disjoint.
Qualifying paths matched by no registered root are assigned to no project. -/
theorem detect_project_roots_partition (paths : List Text) :
    List.Pairwise (fun a b => ∀ p : Text, p ∈ a.2 → p ∉ b.2) (detect_project_roots paths) ∧
    (∀ kv ∈ detect_project_roots paths, kv.1 ∈ registeredRootsOf paths ∧
      ∀ p ∈ kv.2, qualifiesB p = true ∧ p ∈ paths ∧ rootMatchesB kv.1 p = true ∧
        ∀ r ∈ registeredRootsOf paths, rootMatchesB r p = true →
          countSlash r ≤ countSlash kv.1) ∧
    (∀ p ∈ paths, qualifiesB p = true →
      (∃ r ∈ registeredRootsOf paths, rootMatchesB r p = true) →
      ∃ kv ∈ detect_project_roots paths, p ∈ kv.2) := by
  have hkeys : (assignAll (rootsSeed paths) paths).map Prod.fst = registeredRootsOf paths :=
    assignAll_keys paths (rootsSeed paths)
  have hmem : ∀ kv ∈ assignAll (rootsSeed paths) paths, ∀ p ∈ kv.2,
      qualifiesB p = true ∧ p ∈ paths ∧ assignRoot p (registeredRootsOf paths) = some kv.1 := by
    intro kv hkv p hp
    rcases assignAll_mem_values paths (rootsSeed paths) kv p hkv hp with ⟨kv0, hkv0, _, hp0⟩ | h2
    · rw [rootsSeed_values paths kv0 hkv0] at hp0
      cases hp0
    · exact h2
  refine ⟨?_, ?_, ?_⟩
  · -- disjointness
    have hnd : ((assignAll (rootsSeed paths) paths).map Prod.fst).Nodup := by
      rw [hkeys]
      exact rootsSeed_nodup paths
    have hpw : (assignAll (rootsSeed paths) paths).Pairwise (fun a b => a.1 ≠ b.1) :=
      List.pairwise_map.mp hnd
    have hpw2 : (assignAll (rootsSeed paths) paths).Pairwise
        (fun a b => ∀ p : Text, p ∈ a.2 → p ∉ b.2) := by
      refine List.Pairwise.imp_of_mem ?_ hpw
      intro a b ha hb hne p hpa hpb
      have h1 := (hmem a ha p hpa).2.2
      have h2 := (hmem b hb p hpb).2.2
      rw [h1] at h2
      exact hne (Option.some_injective _ h2)
    exact hpw2.sublist (List.filter_sublist _)
  · -- soundness of every assignment
    intro kv hkv
    have hkv2 : kv ∈ assignAll (rootsSeed paths) paths := List.mem_of_mem_filter hkv
    constructor
    · rw [← hkeys]
      exact List.mem_map.mpr ⟨kv, hkv2, rfl⟩
    · intro p hp
      obtain ⟨hq, hpp, hassign⟩ := hmem kv hkv2 p hp
      obtain ⟨hmatch, _, hmax⟩ := assignRoot_spec p (registeredRootsOf paths) kv.1 hassign
      exact ⟨hq, hpp, hmatch, hmax⟩
  · -- completeness for matched qualifying paths
    intro p hpp hq hex
    rcases hex with ⟨r', hr', hmatch'⟩
    rcases assignRoot_isSome_of_match p (registeredRootsOf paths) r' hr' hmatch' with ⟨r, hr⟩
    rcases assignAll_adds paths (rootsSeed paths) p r hpp hq hr with ⟨kv', hkv', _, hp'⟩
    refine ⟨kv', ?_, hp'⟩
    rw [detect_project_roots, List.mem_filter]
    refine ⟨hkv', ?_⟩
    simp only [Bool.not_eq_eq_eq_not, Bool.not_true, List.isEmpty_eq_false]
    exact List.ne_nil_of_mem hp'

/-- Counterexample to claim C1 as stated: with the archive
`["app/package.json", "other/file.txt"]` the only registered root is `"app"`,
and the qualifying path `"other/file.txt"` is assigned to no project root at
all. -/
theorem detect_project_roots_cx :
    qualifiesB (("other/file.txt").data) = true ∧
    registeredRootsOf [("app/package.json").data, ("other/file.txt").data]
      = [("app").data] ∧
    (detect_project_roots [("app/package.json").data, ("other/file.txt").data]).all
      (fun kv => !(memT (("other/file.txt").data) kv.2)) = true := by decide

/-- Witness for `detect_project_roots_partition` on the spec's own two-project
scenario. -/
theorem detect_project_roots_partition_witness :
    qualifiesB (("app/src/index.js").data) = true ∧
    (("app/src/index.js").data : Text) ∈
      [("app/package.json").data, ("app/src/index.js").data,
       ("infra/main.tf").data, ("infra/variables.tf").data] ∧
    rootMatchesB (("app").data) (("app/src/index.js").data) = true := by
  have h0 := (detect_project_roots_partition
    [("app/package.json").data, ("app/src/index.js").data,
     ("infra/main.tf").data, ("infra/variables.tf").data]).2.1
    ((("app").data, [("app/package.json").data, ("app/src/index.js").data]))
    (by decide)
  have h := h0.2 (("app/src/index.js").data) (by decide)
  exact ⟨h.1, h.2.1, h.2.2.1⟩

-- ====== Candidate priority score and ranking ======

/-- The `score` function defined inside `lambda_handler`. -/
def score (p : Text) : Nat :=
  let p_l := toLowerT p
  let base := basename p_l
  if endsWithT p_l ((".tf").data) || endsWithT p_l ((".tfvars").data) ||
     endsWithT p_l ((".tf.json").data) then 100
  else if hasSub p_l (("docker").data) || hasSub p_l (("compose").data) then 90
  else if memT base [("package.json").data, ("pom.xml").data,
                     ("build.gradle").data, ("build.gradle.kts").data] then 80
  else if hasSub p_l (("application").data) &&
          (endsWithT p_l ((".yml").data) || endsWithT p_l ((".yaml").data) ||
           endsWithT p_l ((".properties").data)) then 70
  else if startsWithT base (("readme").data) then 60
  else 10

/-- One step of a stable descending insertion by `score`: the new element goes
after every element of score `≥` its own.  `candidates.sort(key=score,
reverse=True)` in CPython is a stable sort (with `reverse=True` equal elements
keep their relative order), and a stable descending sort is reached by
inserting each element, in list order, after the already-placed elements of
greater or equal score. -/
def insertByScore (x : Text) : List Text → List Text
  | [] => [x]
  | y :: ys => if score y ≥ score x then y :: insertByScore x ys else x :: y :: ys

/-- `candidates.sort(key=score, reverse=True)`. -/
def sortByScoreDesc (l : List Text) : List Text :=
  l.foldl (fun acc x => insertByScore x acc) []

/-- The six score tiers, highest first, with each tier's members in input
order. -/
def tierConcat (l : List Text) : List Text :=
  l.filter (fun p => score p == 100) ++ l.filter (fun p => score p == 90) ++
  l.filter (fun p => score p == 80) ++ l.filter (fun p => score p == 70) ++
  l.filter (fun p => score p == 60) ++ l.filter (fun p => score p == 10)

lemma score_cases (p : Text) :
    score p = 100 ∨ score p = 90 ∨ score p = 80 ∨ score p = 70 ∨
    score p = 60 ∨ score p = 10 := by
  dsimp only [score]
  split_ifs <;> simp

lemma mem_scoreFilter {l : List Text} {s : Nat} {y : Text}
    (h : y ∈ l.filter (fun p => score p == s)) : score y = s := by
  have := List.of_mem_filter h
  exact eq_of_beq this

lemma insertByScore_ge (x : Text) :
    ∀ (pre post : List Text), (∀ y ∈ pre, score x ≤ score y) →
      insertByScore x (pre ++ post) = pre ++ insertByScore x post := by
  intro pre
  induction pre with
  | nil => intro post _; rfl
  | cons y pre' ih =>
    intro post hpre
    have hy : score y ≥ score x := hpre y (List.mem_cons_self _ _)
    rw [List.cons_append, insertByScore, if_pos hy, ih post
      (fun z hz => hpre z (List.mem_cons_of_mem _ hz))]
    rfl

lemma insertByScore_lt (x : Text) :
    ∀ (post : List Text), (∀ y ∈ post, score y < score x) →
      insertByScore x post = x :: post := by
  intro post hpost
  cases post with
  | nil => rfl
  | cons y ys =>
    have hy : ¬ (score y ≥ score x) :=
      not_le.mpr (hpost y (List.mem_cons_self _ _))
    rw [insertByScore, if_neg hy]

lemma filter_append_singleton (l : List Text) (x : Text) (s : Nat) :
    (l ++ [x]).filter (fun p => score p == s) =
      l.filter (fun p => score p == s) ++ (if score x = s then [x] else []) := by
  rw [List.filter_append]
  congr 1
  by_cases h : score x = s
  · have hb : (score x == s) = true := beq_iff_eq.mpr h
    simp [List.filter, hb, h]
  · have hb : (score x == s) = false := by
      rw [beq_eq_false_iff_ne]
      exact h
    simp [List.filter, hb, h]

lemma insert_tier_step (x : Text) (l A B : List Text)
    (hA : tierConcat l = A ++ B)
    (hT : tierConcat (l ++ [x]) = A ++ x :: B)
    (hpre : ∀ y ∈ A, score x ≤ score y) (hpost : ∀ y ∈ B, score y < score x) :
    insertByScore x (tierConcat l) = tierConcat (l ++ [x]) := by
  rw [hA, insertByScore_ge x A B hpre, insertByScore_lt x B hpost, hT]

lemma insert_tierConcat (l : List Text) (x : Text) :
    insertByScore x (tierConcat l) = tierConcat (l ++ [x]) := by
  rcases score_cases x with hs | hs | hs | hs | hs | hs
  · refine insert_tier_step x l
      (l.filter (fun p => score p == 100))
      (l.filter (fun p => score p == 90) ++ l.filter (fun p => score p == 80) ++
       l.filter (fun p => score p == 70) ++ l.filter (fun p => score p == 60) ++
       l.filter (fun p => score p == 10)) ?_ ?_ ?_ ?_
    · simp [tierConcat, List.append_assoc]
    · simp [tierConcat, filter_append_singleton, hs, List.append_assoc]
    · intro y hy
      have := mem_scoreFilter hy
      omega
    · intro y hy
      simp only [List.append_assoc, List.mem_append] at hy
      rcases hy with h | h | h | h | h <;> (have h9 := mem_scoreFilter h; omega)
  · refine insert_tier_step x l
      (l.filter (fun p => score p == 100) ++ l.filter (fun p => score p == 90))
      (l.filter (fun p => score p == 80) ++ l.filter (fun p => score p == 70) ++
       l.filter (fun p => score p == 60) ++ l.filter (fun p => score p == 10)) ?_ ?_ ?_ ?_
    · simp [tierConcat, List.append_assoc]
    · simp [tierConcat, filter_append_singleton, hs, List.append_assoc]
    · intro y hy
      simp only [List.append_assoc, List.mem_append] at hy
      rcases hy with h | h <;> (have h9 := mem_scoreFilter h; omega)
    · intro y hy
      simp only [List.append_assoc, List.mem_append] at hy
      rcases hy with h | h | h | h <;> (have h9 := mem_scoreFilter h; omega)
  · refine insert_tier_step x l
      (l.filter (fun p => score p == 100) ++ l.filter (fun p => score p == 90) ++
       l.filter (fun p => score p == 80))
      (l.filter (fun p => score p == 70) ++ l.filter (fun p => score p == 60) ++
       l.filter (fun p => score p == 10)) ?_ ?_ ?_ ?_
    · simp [tierConcat, List.append_assoc]
    · simp [tierConcat, filter_append_singleton, hs, List.append_assoc]
    · intro y hy
      simp only [List.append_assoc, List.mem_append] at hy
      rcases hy with h | h | h <;> (have h9 := mem_scoreFilter h; omega)
    · intro y hy
      simp only [List.append_assoc, List.mem_append] at hy
      rcases hy with h | h | h <;> (have h9 := mem_scoreFilter h; omega)
  · refine insert_tier_step x l
      (l.filter (fun p => score p == 100) ++ l.filter (fun p => score p == 90) ++
       l.filter (fun p => score p == 80) ++ l.filter (fun p => score p == 70))
      (l.filter (fun p => score p == 60) ++ l.filter (fun p => score p == 10)) ?_ ?_ ?_ ?_
    · simp [tierConcat, List.append_assoc]
    · simp [tierConcat, filter_append_singleton, hs, List.append_assoc]
    · intro y hy
      simp only [List.append_assoc, List.mem_append] at hy
      rcases hy with h | h | h | h <;> (have h9 := mem_scoreFilter h; omega)
    · intro y hy
      simp only [List.append_assoc, List.mem_append] at hy
      rcases hy with h | h <;> (have h9 := mem_scoreFilter h; omega)
  · refine insert_tier_step x l
      (l.filter (fun p => score p == 100) ++ l.filter (fun p => score p == 90) ++
       l.filter (fun p => score p == 80) ++ l.filter (fun p => score p == 70) ++
       l.filter (fun p => score p == 60))
      (l.filter (fun p => score p == 10)) ?_ ?_ ?_ ?_
    · simp [tierConcat, List.append_assoc]
    · simp [tierConcat, filter_append_singleton, hs, List.append_assoc]
    · intro y hy
      simp only [List.append_assoc, List.mem_append] at hy
      rcases hy with h | h | h | h | h <;> (have h9 := mem_scoreFilter h; omega)
    · intro y hy
      have := mem_scoreFilter hy
      omega
  · refine insert_tier_step x l
      (l.filter (fun p => score p == 100) ++ l.filter (fun p => score p == 90) ++
       l.filter (fun p => score p == 80) ++ l.filter (fun p => score p == 70) ++
       l.filter (fun p => score p == 60) ++ l.filter (fun p => score p == 10))
      ([]) ?_ ?_ ?_ ?_
    · simp [tierConcat]
    · simp [tierConcat, filter_append_singleton, hs, List.append_assoc]
    · intro y hy
      simp only [List.append_assoc, List.mem_append] at hy
      rcases hy with h | h | h | h | h | h <;> (have h9 := mem_scoreFilter h; omega)
    · intro y hy
      cases hy
-- ====== safe_invoke_bedrock (claim C8) ======

def hexDigit (n : Nat) : Char :=
  if n < 10 then Char.ofNat (48 + n) else Char.ofNat (87 + n)

/-- String escaping of `json.dumps(..., ensure_ascii=False)`: `"`, `\`, the
five short control escapes, `\u00XX` for the remaining control characters,
everything else (including non-ASCII) verbatim. -/
def jsonEscapeChar (c : Char) : Text :=
  if c = '"' then ("\\\"").data
  else if c = '\\' then ("\\\\").data
  else if c = '\x08' then ("\\b").data
  else if c = '\x09' then ("\\t").data
  else if c = '\x0a' then ("\\n").data
  else if c = '\x0c' then ("\\f").data
  else if c = '\x0d' then ("\\r").data
  else if c.toNat < 32 then ("\\u00").data ++ [hexDigit (c.toNat / 16), hexDigit (c.toNat % 16)]
  else [c]

def jsonEscape (t : Text) : Text := (t.map jsonEscapeChar).flatten

/-- `json.dumps({"messages": payload_messages, "inferenceConfig":
inference_config}, ensure_ascii=False)` for the fixed request shape built by
`safe_invoke_bedrock` (single user message holding the prompt; temperature
0.0, topP 0.9). -/
def dumpsPayload (prompt : Text) (maxTokens : Nat) : Text :=
  ("\x7b\"messages\": [\x7b\"role\": \"user\", \"content\": [\x7b\"text\": \"").data
  ++ jsonEscape prompt
  ++ ("\"\x7d]\x7d], \"inferenceConfig\": \x7b\"maxTokens\": ").data
  ++ (toString maxTokens).data
  ++ (", \"temperature\": 0.0, \"topP\": 0.9\x7d\x7d").data

/-- The request `bedrock.converse` would receive, had the guard passed. -/
structure BedrockCall where
  prompt : Text
  maxTokens : Nat
deriving DecidableEq

def payloadErrMsg (n : Nat) : Text :=
  ("Prompt too large: ").data ++ (toString n).data ++ (" bytes (cap=").data ++
  (toString PAYLOAD_SOFT_CAP_BYTES).data ++ (")").data

/-- `safe_invoke_bedrock`: serialize the full request, measure its UTF-8 byte
length, and raise before any network call when it exceeds
`PAYLOAD_SOFT_CAP_BYTES`; the network call itself is the external effect
represented by the returned `BedrockCall`. -/
def safe_invoke_bedrock (prompt : Text) (maxTokens : Nat) : Except Text BedrockCall :=
  if encLen (dumpsPayload prompt maxTokens) > PAYLOAD_SOFT_CAP_BYTES then
    Except.error (payloadErrMsg (encLen (dumpsPayload prompt maxTokens)))
  else Except.ok ⟨prompt, maxTokens⟩

/-- Claim C8: `safe_invoke_bedrock` serializes the request (messages plus
inference configuration) and raises the descriptive `Prompt too large` error
exactly when the serialized UTF-8 byte length exceeds
`PAYLOAD_SOFT_CAP_BYTES`; only when the length is within the cap does it
produce the Bedrock request (so in the error case the inference call is never
made). -/
theorem safe_invoke_guard (prompt : Text) (maxTokens : Nat) :
    (safe_invoke_bedrock prompt maxTokens
        = Except.error (payloadErrMsg (encLen (dumpsPayload prompt maxTokens)))
      ↔ encLen (dumpsPayload prompt maxTokens) > PAYLOAD_SOFT_CAP_BYTES) ∧
    (safe_invoke_bedrock prompt maxTokens = Except.ok ⟨prompt, maxTokens⟩
      ↔ encLen (dumpsPayload prompt maxTokens) ≤ PAYLOAD_SOFT_CAP_BYTES) := by
  rw [safe_invoke_bedrock]
  split_ifs with h
  · exact ⟨⟨fun _ => h, fun _ => rfl⟩,
      ⟨fun hc => absurd hc (by simp), fun hle => absurd h (not_lt.mpr hle)⟩⟩
  · exact ⟨⟨fun hc => absurd hc (by simp), fun hgt => absurd hgt h⟩,
      ⟨fun _ => not_lt.mp h, fun _ => rfl⟩⟩

-- the serialization matches CPython byte for byte on a sample prompt
example : dumpsPayload (("hi").data) 1500 =
    ("\x7b\"messages\": [\x7b\"role\": \"user\", \"content\": [\x7b\"text\": \"hi\"\x7d]\x7d], \"inferenceConfig\": \x7b\"maxTokens\": 1500, \"temperature\": 0.0, \"topP\": 0.9\x7d\x7d").data := by
  decide


lemma sortByScoreDesc_eq_tierConcat (l : List Text) : sortByScoreDesc l = tierConcat l := by
  induction l using List.reverseRecOn with
  | nil => rfl
  | append_singleton l x ih =>
    rw [sortByScoreDesc, List.foldl_append, List.foldl_cons, List.foldl_nil,
      ← sortByScoreDesc, ih, insert_tierConcat]

-- ====== Claim C5 ======

/-- Claim C5 (amended): within each project, candidates are processed in
non-increasing score order (IaC 100, docker/compose 90, top build manifests
80, application config 70, README 60, all else 10), and candidates of equal
score keep the relative order of the list being sorted — which is the
iteration order of the project's file set (a Python `set`), not necessarily
the original archive enumeration order.  For the scenario list the ranked
order is `main.tf, Dockerfile, package.json, README.md, src/App.java`. -/
theorem candidate_ranking :
    (∀ l : List Text, sortByScoreDesc l = tierConcat l) ∧
    sortByScoreDesc
      [("main.tf").data, ("Dockerfile").data, ("package.json").data,
       ("README.md").data, ("src/App.java").data] =
      [("main.tf").data, ("Dockerfile").data, ("package.json").data,
       ("README.md").data, ("src/App.java").data] ∧
    score (("main.tf").data) = 100 ∧ score (("Dockerfile").data) = 90 ∧
    score (("package.json").data) = 80 ∧ score (("README.md").data) = 60 ∧
    score (("src/App.java").data) = 10 :=
  ⟨sortByScoreDesc_eq_tierConcat, by decide, by decide, by decide, by decide,
   by decide, by decide⟩

/-- Counterexample to claim C5 as stated: the candidate list is built from the
Python set `project_files`, whose iteration order is unspecified (string
hashing is randomised), not the archive enumeration order.  For the archive
order `[x/a.yaml, x/b.yaml]` (two signal files of equal score 10) the set
`{x/a.yaml, x/b.yaml}` may be iterated as `[x/b.yaml, x/a.yaml]`; sorting that
valid iteration order processes the equal-score candidates as `b` before `a`,
not in archive enumeration order. -/
theorem candidate_ranking_cx :
    List.Perm [("x/b.yaml").data, ("x/a.yaml").data]
      [("x/a.yaml").data, ("x/b.yaml").data] ∧
    score (("x/a.yaml").data) = score (("x/b.yaml").data) ∧
    is_signalB (("x/a.yaml").data) = true ∧ is_signalB (("x/b.yaml").data) = true ∧
    sortByScoreDesc (([("x/b.yaml").data, ("x/a.yaml").data]).filter is_signalB) ≠
      sortByScoreDesc (([("x/a.yaml").data, ("x/b.yaml").data]).filter is_signalB) := by
  refine ⟨?_, by decide, by decide, by decide, by decide⟩
  decide

-- ====== Byte-length lemmas ======

lemma utf8Width_pos (c : Char) : 1 ≤ utf8Width c := by
  rw [utf8Width]
  split_ifs <;> omega

lemma encLen_cons (c : Char) (t : Text) : encLen (c :: t) = utf8Width c + encLen t := by
  simp [encLen]

lemma encLen_append (a b : Text) : encLen (a ++ b) = encLen a + encLen b := by
  simp [encLen]

lemma encLen_takeBytes (n : Nat) (t : Text) : encLen (takeBytes n t) ≤ n := by
  induction t generalizing n with
  | nil => simp [takeBytes, encLen]
  | cons c cs ih =>
    rw [takeBytes]
    split_ifs with h
    · rw [encLen_cons]
      have := ih (n - utf8Width c)
      omega
    · simp [encLen]

lemma encLen_width1 (t : Text) (h : ∀ c ∈ t, utf8Width c = 1) : encLen t = t.length := by
  induction t with
  | nil => rfl
  | cons c cs ih =>
    rw [encLen_cons, h c (List.mem_cons_self _ _), List.length_cons,
      ih (fun d hd => h d (List.mem_cons_of_mem _ hd))]
    omega

lemma takeBytes_zero (t : Text) : takeBytes 0 t = [] := by
  cases t with
  | nil => rfl
  | cons c cs =>
    rw [takeBytes, if_neg]
    have := utf8Width_pos c
    omega

lemma takeBytes_width1 (t : Text) : ∀ (n : Nat) (rest : Text),
    (∀ c ∈ t, utf8Width c = 1) → n ≤ t.length →
    takeBytes n (t ++ rest) = t.take n := by
  induction t with
  | nil =>
    intro n rest _ hn
    have : n = 0 := Nat.le_zero.mp hn
    subst this
    rw [List.nil_append, takeBytes_zero, List.take_nil]
  | cons c cs ih =>
    intro n rest h hn
    cases n with
    | zero => rw [takeBytes_zero, List.take_zero]
    | succ m =>
      rw [List.cons_append, takeBytes,
        if_pos (by rw [h c (List.mem_cons_self _ _)]; omega),
        h c (List.mem_cons_self _ _), List.take_succ_cons]
      simp only [Nat.add_sub_cancel]
      rw [ih m rest (fun d hd => h d (List.mem_cons_of_mem _ hd))
        (by simpa using Nat.succ_le_succ_iff.mp hn)]

-- ====== A concrete high-volume text: n lines, each the single letter a ======

/-- `n` repetitions of the two characters `a`, `\n`. -/
def aNlBlock (n : Nat) : Text := (List.replicate n (('a') :: newlineChar :: [])).flatten

lemma aNlBlock_succ (n : Nat) : aNlBlock (n + 1) = 'a' :: newlineChar :: aNlBlock n := by
  rw [aNlBlock, List.replicate_succ, List.flatten_cons]
  rfl

lemma aNlBlock_length (n : Nat) : (aNlBlock n).length = 2 * n := by
  induction n with
  | zero => rfl
  | succ k ih =>
    rw [aNlBlock_succ, List.length_cons, List.length_cons, ih]
    omega

lemma aNlBlock_width1 (n : Nat) : ∀ c ∈ aNlBlock n, utf8Width c = 1 := by
  induction n with
  | zero => intro c hc; cases hc
  | succ k ih =>
    intro c hc
    rw [aNlBlock_succ] at hc
    rcases List.mem_cons.mp hc with rfl | hc2
    · decide
    · rcases List.mem_cons.mp hc2 with rfl | hc3
      · decide
      · exact ih c hc3

lemma aNlBlock_encLen (n : Nat) : encLen (aNlBlock n) = 2 * n := by
  rw [encLen_width1 _ (aNlBlock_width1 n), aNlBlock_length]

lemma aNlBlock_append_ne_nil (n : Nat) : aNlBlock n ++ [('a')] ≠ [] := by
  simp

-- ====== Step lemmas for splitlinesGo ======

lemma splitlinesGo_nonbreak (c : Char) (rest acc : Text) (h : isLineBreak c = false) :
    splitlinesGo (c :: rest) acc = splitlinesGo rest (c :: acc) := by
  rw [splitlinesGo.eq_def]
  split
  · rename_i heq
    exact List.noConfusion heq
  · rename_i heq
    injection heq with h1 _
    rw [h1] at h
    exact absurd h (by decide)
  · rename_i hno heq
    injection heq with h1 h2
    subst h1
    subst h2
    rw [if_neg (by rw [h]; exact Bool.false_ne_true)]

lemma splitlinesGo_nl (rest acc : Text) (h : rest ≠ []) :
    splitlinesGo (newlineChar :: rest) acc = acc.reverse :: splitlinesGo rest [] := by
  rw [splitlinesGo.eq_def]
  split
  · rename_i heq
    exact List.noConfusion heq
  · rename_i heq
    injection heq with h1 _
    exact absurd h1 (by decide)
  · rename_i hno heq
    injection heq with h1 h2
    subst h1
    subst h2
    rw [if_pos (by decide), if_neg h]

lemma splitlinesGo_aNl (n : Nat) :
    splitlinesGo (aNlBlock n ++ [('a')]) [] = List.replicate (n + 1) (('a') :: []) := by
  induction n with
  | zero => decide
  | succ k ih =>
    rw [aNlBlock_succ, List.cons_append, List.cons_append,
      splitlinesGo_nonbreak 'a' _ _ (by decide),
      splitlinesGo_nl _ _ (aNlBlock_append_ne_nil k), ih, List.replicate_succ]
    rfl

lemma splitlines_aNl (n : Nat) :
    splitlines (aNlBlock n ++ [('a')]) = List.replicate (n + 1) (('a') :: []) := by
  rw [splitlines, if_neg (aNlBlock_append_ne_nil n), splitlinesGo_aNl]

lemma joinNL_replicate_a (n : Nat) :
    joinNL (List.replicate (n + 1) (('a') :: [])) = aNlBlock n ++ [('a')] := by
  induction n with
  | zero => decide
  | succ k ih =>
    rw [List.replicate_succ, List.replicate_succ, joinNL, ← List.replicate_succ, ih,
      aNlBlock_succ]
    rfl

-- ====== The sanitizer on the concrete text ======

lemma redact_aNl (n : Nat) :
    redact_secrets (aNlBlock n ++ [('a')]) = aNlBlock n ++ [('a')] := by
  rw [redact_secrets, splitlines_aNl, List.map_replicate,
    show redactLine (('a') :: []) = ('a') :: [] from by decide, joinNL_replicate_a]

lemma minifyText_aNl (n : Nat) :
    minifyText (aNlBlock n ++ [('a')]) = aNlBlock n ++ [('a')] := by
  rw [minifyText, splitlines_aNl, List.map_replicate,
    show minifyLine (('a') :: []) = ('a') :: [] from by decide,
    List.filter_eq_self.mpr (fun l hl => by
      rw [List.eq_of_mem_replicate hl]
      decide),
    List.map_replicate,
    show capLine (('a') :: []) = ('a') :: [] from by decide,
    joinNL_replicate_a]

-- ====== Claim C3 ======

/-- Claim C3 (amended): for every comment substitution, input text and
extension, the sanitized snippet produced by `strip_comments_and_minify` has
UTF-8 byte length at most `MAX_BYTES_PER_FILE` plus the byte length of the
truncation marker (16000 + 16): when the minified text exceeds the ceiling it
is cut at the ceiling on a character boundary (discarding any partial trailing
character) and the marker line is appended *after* the cut, so the result may
exceed the ceiling itself by up to 16 bytes. -/
theorem strip_minify_byte_cap (csub : Text → Text → Text) (text ext : Text) :
    encLen (strip_comments_and_minify csub text ext) ≤
      MAX_BYTES_PER_FILE + encLen TRUNC_MARKER := by
  rw [strip_comments_and_minify, capFileBytes]
  split_ifs with h
  · rw [encLen_append]
    have := encLen_takeBytes MAX_BYTES_PER_FILE (minifyText (csub (langKey ext) text))
    omega
  · omega

/-- Counterexample to claim C3 as stated: a text of 8001 lines, each the
single letter `a`, with extension `.txt` (whose key `txt` is not in
`COMMENT_RE`, so the comment substitution is the source's no-op default)
minifies to 16001 bytes; the output is cut at 16000 bytes and the 16-byte
marker is appended, for a total of 16016 bytes — more than the per-file byte
ceiling `MAX_BYTES_PER_FILE = 16000` the claim promises. -/
theorem strip_minify_byte_cap_cx :
    encLen (strip_comments_and_minify (fun _ t => t) (aNlBlock 8000 ++ [('a')])
      ((".txt").data)) = 16016 ∧ 16016 > MAX_BYTES_PER_FILE := by
  constructor
  · rw [strip_comments_and_minify]
    rw [minifyText_aNl, capFileBytes]
    have hlen : encLen (aNlBlock 8000 ++ [('a')]) = 16001 := by
      rw [encLen_append, aNlBlock_encLen]
      rfl
    rw [if_pos (by rw [hlen]; decide)]
    rw [show MAX_BYTES_PER_FILE = 16000 from rfl,
      takeBytes_width1 (aNlBlock 8000) 16000 [('a')] (aNlBlock_width1 8000)
        (by rw [aNlBlock_length])]
    rw [show (16000 : Nat) = (aNlBlock 8000).length from by rw [aNlBlock_length],
      List.take_length, encLen_append, aNlBlock_encLen]
    rfl
  · decide

-- ====== Structure of splitlines and joinNL ======

lemma splitlinesGo_breakfree (l : Text) : ∀ (acc : Text),
    (∀ c ∈ l, isLineBreak c = false) → splitlinesGo l acc = [acc.reverse ++ l] := by
  induction l with
  | nil =>
    intro acc _
    rw [splitlinesGo, List.append_nil]
  | cons c cs ih =>
    intro acc h
    rw [splitlinesGo_nonbreak c cs acc (h c (List.mem_cons_self _ _)),
      ih (c :: acc) (fun d hd => h d (List.mem_cons_of_mem _ hd))]
    simp

lemma splitlinesGo_nl_full (rest acc : Text) :
    splitlinesGo (newlineChar :: rest) acc =
      if rest = [] then [acc.reverse] else acc.reverse :: splitlinesGo rest [] := by
  rw [splitlinesGo.eq_def]
  split
  · rename_i heq
    exact List.noConfusion heq
  · rename_i heq
    injection heq with h1 _
    exact absurd h1 (by decide)
  · rename_i hno heq
    injection heq with h1 h2
    subst h1
    subst h2
    rw [if_pos (by decide)]

lemma splitlinesGo_crlf (rest acc : Text) :
    splitlinesGo ('\x0d' :: '\x0a' :: rest) acc =
      if rest = [] then [acc.reverse] else acc.reverse :: splitlinesGo rest [] := by
  rw [splitlinesGo.eq_def]
  split
  · rename_i heq
    exact List.noConfusion heq
  · rename_i heq
    injection heq with _ h2
    injection h2 with _ h3
    subst h3
    rfl
  · rename_i hno heq
    injection heq with h1 h2
    exact absurd (hno rest h1.symm h2.symm) not_false

lemma splitlinesGo_break_generic (d : Char) (rest acc : Text) (hd : isLineBreak d = true)
    (hne : ¬(d = '\x0d' ∧ ∃ rest2, rest = '\x0a' :: rest2)) :
    splitlinesGo (d :: rest) acc =
      if rest = [] then [acc.reverse] else acc.reverse :: splitlinesGo rest [] := by
  rw [splitlinesGo.eq_def]
  split
  · rename_i heq
    exact List.noConfusion heq
  · rename_i heq
    injection heq with h1 h2
    exact absurd ⟨h1, _, h2⟩ hne
  · rename_i hno heq
    injection heq with h1 h2
    subst h1
    subst h2
    rw [if_pos hd]

lemma splitlinesGo_all_breakfree : ∀ (n : Nat) (t acc : Text), t.length ≤ n →
    (∀ c ∈ acc, isLineBreak c = false) →
    ∀ l ∈ splitlinesGo t acc, ∀ c ∈ l, isLineBreak c = false := by
  intro n
  induction n with
  | zero =>
    intro t acc hlen hacc l hl c hc
    have ht : t = [] := List.eq_nil_of_length_eq_zero (Nat.le_zero.mp hlen)
    subst ht
    rw [splitlinesGo] at hl
    rw [List.mem_singleton.mp hl] at hc
    exact hacc c (List.mem_reverse.mp hc)
  | succ m ih =>
    intro t acc hlen hacc l hl c hc
    cases t with
    | nil =>
      rw [splitlinesGo] at hl
      rw [List.mem_singleton.mp hl] at hc
      exact hacc c (List.mem_reverse.mp hc)
    | cons d rest =>
      by_cases hd : isLineBreak d = false
      · rw [splitlinesGo_nonbreak d rest acc hd] at hl
        refine ih rest (d :: acc) (by simpa using Nat.succ_le_succ_iff.mp hlen) ?_ l hl c hc
        intro e he
        rcases List.mem_cons.mp he with rfl | he2
        · exact hd
        · exact hacc e he2
      · have hd2 : isLineBreak d = true := by
          cases hb : isLineBreak d
          · exact absurd hb hd
          · rfl
        by_cases hcr : d = '\x0d' ∧ ∃ rest2, rest = '\x0a' :: rest2
        · obtain ⟨rfl, rest2, rfl⟩ := hcr
          rw [splitlinesGo_crlf] at hl
          split_ifs at hl with he
          · rw [List.mem_singleton.mp hl] at hc
            exact hacc c (List.mem_reverse.mp hc)
          · rcases List.mem_cons.mp hl with rfl | hl2
            · exact hacc c (List.mem_reverse.mp hc)
            · refine ih rest2 [] (by simp at hlen ⊢; omega) (by intro e he; cases he)
                l hl2 c hc
        · rw [splitlinesGo_break_generic d rest acc hd2 hcr] at hl
          split_ifs at hl with he
          · rw [List.mem_singleton.mp hl] at hc
            exact hacc c (List.mem_reverse.mp hc)
          · rcases List.mem_cons.mp hl with rfl | hl2
            · exact hacc c (List.mem_reverse.mp hc)
            · refine ih rest [] (by simpa using Nat.succ_le_succ_iff.mp hlen)
                (by intro e he; cases he) l hl2 c hc

/-- Every line produced by `splitlines` is free of line-break characters. -/
lemma splitlines_breakfree (t : Text) :
    ∀ l ∈ splitlines t, ∀ c ∈ l, isLineBreak c = false := by
  intro l hl c hc
  rw [splitlines] at hl
  split_ifs at hl with ht
  · cases hl
  · exact splitlinesGo_all_breakfree t.length t [] le_rfl (by intro e he; cases he) l hl c hc

lemma splitlinesGo_line (l : Text) : ∀ (rest2 acc : Text),
    (∀ c ∈ l, isLineBreak c = false) →
    splitlinesGo (l ++ newlineChar :: rest2) acc =
      if rest2 = [] then [acc.reverse ++ l]
      else (acc.reverse ++ l) :: splitlinesGo rest2 [] := by
  induction l with
  | nil =>
    intro rest2 acc _
    rw [List.nil_append, splitlinesGo_nl_full]
    simp
  | cons c cs ih =>
    intro rest2 acc h
    rw [List.cons_append, splitlinesGo_nonbreak c _ acc (h c (List.mem_cons_self _ _)),
      ih rest2 (c :: acc) (fun d hd => h d (List.mem_cons_of_mem _ hd))]
    simp [List.append_assoc]

/-- Re-splitting a newline-join of break-free lines returns the lines, except
that one trailing empty line is absorbed by the final separator (Python:
`"a\n".splitlines() == ["a"]`). -/
lemma splitlines_joinNL : ∀ (lines : List Text),
    (∀ l ∈ lines, ∀ c ∈ l, isLineBreak c = false) → lines ≠ [] →
    splitlines (joinNL lines) =
      if lines.getLast? = some [] then lines.dropLast else lines := by
  intro lines
  induction lines with
  | nil => intro _ h; exact absurd rfl h
  | cons l tail ih =>
    intro hbf _
    cases tail with
    | nil =>
      rw [joinNL, splitlines]
      by_cases hl : l = []
      · subst hl
        rw [if_pos rfl]
        simp
      · rw [if_neg hl, splitlinesGo_breakfree l [] (hbf l (List.mem_cons_self _ _))]
        simp [hl]
    | cons l2 tail2 =>
      rw [joinNL, splitlines, if_neg (by simp),
        splitlinesGo_line l _ [] (hbf l (List.mem_cons_self _ _))]
      by_cases hj : joinNL (l2 :: tail2) = []
      · have h23 : l2 = [] ∧ tail2 = [] := by
          cases tail2 with
          | nil =>
            cases l2 with
            | nil => exact ⟨rfl, rfl⟩
            | cons a b => rw [joinNL] at hj; cases hj
          | cons l3 t3 =>
            rw [joinNL] at hj
            exact absurd hj (by simp)
        obtain ⟨rfl, rfl⟩ := h23
        rw [if_pos hj]
        simp
      · rw [if_neg hj]
        have ihr := ih (fun l2 hl2 => hbf l2 (List.mem_cons_of_mem _ hl2)) (by simp)
        rw [show splitlinesGo (joinNL (l2 :: tail2)) [] = splitlines (joinNL (l2 :: tail2)) by
          rw [splitlines, if_neg hj], ihr]
        have hg : (l :: l2 :: tail2).getLast? = (l2 :: tail2).getLast? := by
          rw [List.getLast?_cons_cons]
        rw [hg]
        by_cases hlast : (l2 :: tail2).getLast? = some ([] : Text)
        · rw [if_pos hlast, if_pos hlast]
          simp
        · rw [if_neg hlast, if_neg hlast]
          simp

/-- The split of the join is an initial segment of the lines. -/
lemma splitlines_joinNL_prefix (lines : List Text)
    (hbf : ∀ l ∈ lines, ∀ c ∈ l, isLineBreak c = false) :
    ∃ suf, lines = splitlines (joinNL lines) ++ suf := by
  cases hl : lines with
  | nil => exact ⟨[], by rw [joinNL, splitlines]; rfl⟩
  | cons a b =>
    rw [← hl, splitlines_joinNL lines hbf (by rw [hl]; simp)]
    split_ifs with h
    · refine ⟨[[]], ?_⟩
      have h2 := @List.dropLast_append_getLast _ lines (by rw [hl]; simp)
      have hg : lines.getLast (by rw [hl]; simp) = [] := by
        rwa [List.getLast?_eq_getLast lines (by rw [hl]; simp), Option.some_inj] at h
      conv_lhs => rw [← h2, hg]
    · exact ⟨[], by rw [List.append_nil]⟩

/-- Every non-empty break-free line survives the join/split round trip. -/
lemma splitlines_joinNL_mem (lines : List Text)
    (hbf : ∀ l ∈ lines, ∀ c ∈ l, isLineBreak c = false)
    (l : Text) (hl : l ∈ lines) (hne : l ≠ []) :
    l ∈ splitlines (joinNL lines) := by
  have hnil : lines ≠ [] := List.ne_nil_of_mem hl
  rw [splitlines_joinNL lines hbf hnil]
  split_ifs with h
  · have hsplit := @List.dropLast_append_getLast _ lines hnil
    have hg : lines.getLast hnil = [] := by
      rwa [List.getLast?_eq_getLast lines hnil, Option.some_inj] at h
    rw [← hsplit, hg] at hl
    rcases List.mem_append.mp hl with h2 | h2
    · exact h2
    · exact absurd (List.mem_singleton.mp h2) hne
  · exact hl

-- ====== Claim C4 ======

lemma redactLine_breakfree (l : Text) (h : ∀ c ∈ l, isLineBreak c = false) :
    ∀ c ∈ redactLine l, isLineBreak c = false := by
  intro c hc
  rw [redactLine] at hc
  split_ifs at hc with h1 h2 h3
  · rcases List.mem_append.mp hc with h4 | h4
    · exact h c ((List.takeWhile_sublist _).subset h4)
    · exact (show ∀ d ∈ (("=***REDACTED***").data : Text), isLineBreak d = false from
        by decide) c h4
  · rcases List.mem_append.mp hc with h4 | h4
    · exact h c ((List.takeWhile_sublist _).subset h4)
    · exact (show ∀ d ∈ ((": ***REDACTED***").data : Text), isLineBreak d = false from
        by decide) c h4
  · exact (show ∀ d ∈ (("***REDACTED LINE***").data : Text), isLineBreak d = false from
      by decide) c hc
  · exact h c hc

lemma redactLine_sensitive_ne_nil (l : Text) (h : sensitiveLineB l = true) :
    redactLine l ≠ [] := by
  rw [redactLine, if_pos h]
  split_ifs
  · simp only [ne_eq, List.append_eq_nil]
    rintro ⟨-, h2⟩
    exact absurd h2 (by decide)
  · simp only [ne_eq, List.append_eq_nil]
    rintro ⟨-, h2⟩
    exact absurd h2 (by decide)
  · decide

/-- Claim C4: after `redact_secrets`, the output lines are exactly the
line-wise redactions of the input lines, in order (up to one trailing empty
line absorbed by the final newline): a line containing a sensitive-key
substring (case-insensitive) keeps only its part before the first `=` — or,
failing that, the first `:` — followed by the redaction marker, and such a
redacted line always appears in the output; lines without a sensitive
substring pass through unchanged; `AWS_SECRET_KEY=abcd1234` becomes
`AWS_SECRET_KEY=***REDACTED***`. -/
theorem redact_secrets_spec (t : Text) :
    (∃ suf, (splitlines t).map redactLine = splitlines (redact_secrets t) ++ suf) ∧
    (∀ line ∈ splitlines t, sensitiveLineB line = true →
      redactLine line ∈ splitlines (redact_secrets t) ∧
      (line.any (fun c => c = '=') = true →
        redactLine line = line.takeWhile (fun c => c ≠ '=') ++ ("=***REDACTED***").data) ∧
      (line.any (fun c => c = '=') = false → line.any (fun c => c = ':') = true →
        redactLine line = line.takeWhile (fun c => c ≠ ':') ++ (": ***REDACTED***").data) ∧
      (line.any (fun c => c = '=') = false → line.any (fun c => c = ':') = false →
        redactLine line = ("***REDACTED LINE***").data)) ∧
    (∀ line ∈ splitlines t, sensitiveLineB line = false → redactLine line = line) ∧
    redact_secrets (("AWS_SECRET_KEY=abcd1234").data)
      = ("AWS_SECRET_KEY=***REDACTED***").data := by
  have hbf : ∀ l ∈ (splitlines t).map redactLine, ∀ c ∈ l, isLineBreak c = false := by
    intro l hl
    rcases List.mem_map.mp hl with ⟨l0, hl0, rfl⟩
    exact redactLine_breakfree l0 (splitlines_breakfree t l0 hl0)
  refine ⟨?_, ?_, ?_, by decide⟩
  · rw [redact_secrets]
    exact splitlines_joinNL_prefix _ hbf
  · intro line hline hsens
    refine ⟨?_, ?_, ?_, ?_⟩
    · rw [redact_secrets]
      exact splitlines_joinNL_mem _ hbf _ (List.mem_map_of_mem _ hline)
        (redactLine_sensitive_ne_nil line hsens)
    · intro he
      rw [redactLine, if_pos hsens, if_pos he]
    · intro he hc
      rw [redactLine, if_pos hsens, if_neg (by simp [he]), if_pos hc]
    · intro he hc
      rw [redactLine, if_pos hsens, if_neg (by simp [he]), if_neg (by simp [hc])]
  · intro line _ hsens
    rw [redactLine, if_neg (by simp [hsens])]

/-- Witness for `redact_secrets_spec` on a two-line input: the sensitive line
is redacted in the output and the plain line passes through. -/
theorem redact_secrets_spec_witness :
    redactLine (("AWS_SECRET_KEY=abcd1234").data) ∈
      splitlines (redact_secrets (("AWS_SECRET_KEY=abcd1234\nname=x").data)) ∧
    redactLine (("name=x").data) = ("name=x").data := by
  have h := redact_secrets_spec (("AWS_SECRET_KEY=abcd1234\nname=x").data)
  exact ⟨(h.2.1 (("AWS_SECRET_KEY=abcd1234").data) (by decide) (by decide)).1,
    h.2.2.1 (("name=x").data) (by decide) (by decide)⟩


-- ====== Claim C10 ======

/-- Any of the basename-only signal conditions forces `is_signal_path` to
accept, whatever the rest of the path looks like. -/
lemma is_signalB_true_of_any (p : Text)
    (h : memT (basename p) SIGNAL_BASENAMES = true ∨
      SIGNAL_SUFFIXES.any (fun s => endsWithT (basename p) s) = true) :
    is_signalB p = true := by
  dsimp only [is_signalB]
  rcases h with h | h
  · rw [if_pos h]
  · split_ifs <;> rfl

/-- Claim C10: every path whose basename is a project-root marker is a signal
path — the marker set is contained in the signal classification, so a project
root seeded by a marker file always contains at least one signal candidate
(the marker file itself). -/
theorem markers_are_signal (p : Text) (h : basename p ∈ PROJECT_ROOT_MARKERS) :
    is_signalB p = true := by
  apply is_signalB_true_of_any
  rw [PROJECT_ROOT_MARKERS] at h
  simp only [List.mem_cons, List.not_mem_nil, or_false] at h
  rcases h with h|h|h|h|h|h|h|h|h|h|h|h|h|h|h|h <;>
    first
      | exact Or.inl (by rw [h]; decide)
      | exact Or.inr (by rw [h]; decide)

/-- Witness for `markers_are_signal` at a concrete marker file. -/
theorem markers_are_signal_witness :
    is_signalB (("srv/package.json").data) = true ∧
    is_signalB (("infra/main.tf").data) = true :=
  ⟨markers_are_signal (("srv/package.json").data) (by decide),
   markers_are_signal (("infra/main.tf").data) (by decide)⟩


-- ====== Metadata documents and merge_metadata (claims C6, C7) ======

/-- JSON-like values, as produced by `json.loads` of the LLM output. -/
inductive J where
  | null : J
  | bool : Bool → J
  | num : Int → J
  | str : String → J
  | arr : List J → J
  | obj : List (String × J) → J

abbrev Dict := List (String × J)

/-- Python truthiness of a JSON value (`if value:`). -/
def pyTruthy : J → Bool
  | .null => false
  | .bool b => b
  | .num n => n != 0
  | .str s => !s.isEmpty
  | .arr l => !l.isEmpty
  | .obj d => !d.isEmpty

def hasKey (d : Dict) (k : String) : Bool := d.any (fun kv => kv.1 == k)

/-- Python dict assignment `d[k] = v`: replace in place when the key exists
(keeping its position), else append. -/
def dictSet (d : Dict) (k : String) (v : J) : Dict :=
  if hasKey d k then d.map (fun kv => if kv.1 == k then (k, v) else kv)
  else d ++ [(k, v)]

def dictGetD (d : Dict) (k : String) (v0 : J) : J :=
  match d.find? (fun kv => kv.1 == k) with
  | some kv => kv.2
  | none => v0

/-- Python `dict.update`: apply the right-hand entries, in order. -/
def dictUpdate (d e : Dict) : Dict := e.foldl (fun acc kv => dictSet acc kv.1 kv.2) d

/-- `str(value)` as used in the f-strings of `merge_metadata`: exact for the
scalar values (strings, integers, booleans, None).  CPython renders list and
dict values via `repr`; nothing in the analysed pipeline stringifies a
container (names are scalars in the documents), so those two cases are
abbreviated placeholder renderings. -/
def pyStr : J → String
  | .null => "None"
  | .bool true => "True"
  | .bool false => "False"
  | .num n => toString n
  | .str s => s
  | .arr _ => "[…]"
  | .obj _ => "\x7b…\x7d"

/-- One parsed project-metadata document, as `merge_metadata` reads it:
`meta.get(key, default)` maps a missing key to the default, so the list- and
dict-valued fields carry their defaults directly and only the two name fields
need an explicit absent state. -/
structure MetaDoc where
  projectName : Option J
  projectRoot : Option J
  services : List Dict
  infrastructure_aws : Dict
  infrastructure_external : List J
  deployment : Dict
  findings : List Dict

/-- One entry of `merged["projects"]`. -/
structure ProjEntry where
  name : J
  root : J
  serviceCount : Nat

/-- The merged document built by `merge_metadata`. -/
structure Merged where
  services : List Dict
  infraAws : Dict
  infraExternal : List J
  deployment : Dict
  findings : List Dict
  projects : List ProjEntry

def emptyMerged : Merged := ⟨[], [], [], [], [], []⟩

/-- `meta.get("projectName", f"project-{idx+1}")`. -/
def pnameJ (idx : Nat) (meta : MetaDoc) : J :=
  meta.projectName.getD (J.str ("project-" ++ toString (idx + 1)))

/-- The per-service copy: prefix the name (when present) with
`f"{project_name}/"` and record the origin project. -/
def tagSvc (pname : J) (svc : Dict) : Dict :=
  let svc1 :=
    if hasKey svc "name" then
      dictSet svc "name" (J.str (pyStr pname ++ "/" ++ pyStr (dictGetD svc "name" J.null)))
    else svc
  dictSet svc1 "project" pname

def tagFinding (pname : J) (f : Dict) : Dict := dictSet f "project" pname

/-- A truthy value under an existing dict-valued key updates the stored dict
in place (`merged["infrastructure"]["aws"][key].update(value)`); a non-dict
existing value would raise in Python and is modelled as left unchanged. -/
def jUpdate (existing : J) (e : Dict) : J :=
  match existing with
  | .obj d => .obj (dictUpdate d e)
  | other => other

/-- The `aws` infrastructure merge loop of `merge_metadata`. -/
def mergeAws (acc : Dict) (aws : Dict) : Dict :=
  aws.foldl (fun m kv =>
    if pyTruthy kv.2 then
      if ¬ hasKey m kv.1 then dictSet m kv.1 kv.2
      else match kv.2 with
        | .obj e => m.map (fun kv0 => if kv0.1 == kv.1 then (kv0.1, jUpdate kv0.2 e) else kv0)
        | _ => m
    else m) acc

/-- The `deployment` merge of `merge_metadata`: first non-empty deployment
wins; a later document can only contribute missing terraform hints. -/
def mergeDeployment (cur deploy : Dict) : Dict :=
  if ¬ pyTruthy (J.obj cur) then deploy
  else if hasKey deploy "terraformHints" ∧ ¬ hasKey cur "terraformHints" then
    dictSet cur "terraformHints" (dictGetD deploy "terraformHints" J.null)
  else cur

/-- One iteration of the `for idx, meta in enumerate(metadata_list)` loop. -/
def mergeOne (idx : Nat) (m : Merged) (meta : MetaDoc) : Merged :=
  let project_name := pnameJ idx meta
  { projects := m.projects ++
      [⟨project_name, meta.projectRoot.getD (J.str "."), meta.services.length⟩]
    services := m.services ++ meta.services.map (tagSvc project_name)
    infraAws := mergeAws m.infraAws meta.infrastructure_aws
    infraExternal := m.infraExternal ++ meta.infrastructure_external
    deployment := mergeDeployment m.deployment meta.deployment
    findings := m.findings ++ meta.findings.map (tagFinding project_name) }

def mergeGo : Nat → Merged → List MetaDoc → Merged
  | _, m, [] => m
  | idx, m, meta :: rest => mergeGo (idx + 1) (mergeOne idx m meta) rest

/-- `merge_metadata` of code-analysis.py. -/
def merge_metadata (docs : List MetaDoc) : Merged := mergeGo 0 emptyMerged docs

/-- The merge step of `lambda_handler` (lines 531-538): no usable document
yields no final metadata, a single document is used as-is, several are
merged. -/
def finalMetadata : List MetaDoc → Option (MetaDoc ⊕ Merged)
  | [] => none
  | [d] => some (Sum.inl d)
  | d :: d2 :: rest => some (Sum.inr (merge_metadata (d :: d2 :: rest)))

-- ====== Claim C6 ======

/-- Claim C6: when exactly one project produced usable metadata, the merge
step of the handler passes the lone document through unchanged (it never even
enters `merge_metadata`). -/
theorem merge_single_passthrough (d : MetaDoc) : finalMetadata [d] = some (Sum.inl d) := rfl

-- ====== Claim C7 ======

def mapWithIdx {α : Type} (f : Nat → MetaDoc → α) : Nat → List MetaDoc → List α
  | _, [] => []
  | i, x :: xs => f i x :: mapWithIdx f (i + 1) xs

lemma mapWithIdx_length {α : Type} (f : Nat → MetaDoc → α) :
    ∀ (i : Nat) (docs : List MetaDoc), (mapWithIdx f i docs).length = docs.length := by
  intro i docs
  induction docs generalizing i with
  | nil => rfl
  | cons d rest ih =>
    rw [mapWithIdx, List.length_cons, List.length_cons, ih]

/-- The entry `merge_metadata` records for document `i`. -/
def projEntryOf (i : Nat) (meta : MetaDoc) : ProjEntry :=
  ⟨pnameJ i meta, meta.projectRoot.getD (J.str "."), meta.services.length⟩

lemma mergeGo_projects : ∀ (docs : List MetaDoc) (idx : Nat) (m : Merged),
    (mergeGo idx m docs).projects = m.projects ++ mapWithIdx projEntryOf idx docs := by
  intro docs
  induction docs with
  | nil => intro idx m; rw [mergeGo, mapWithIdx, List.append_nil]
  | cons meta rest ih =>
    intro idx m
    rw [mergeGo, ih, mapWithIdx]
    show (mergeOne idx m meta).projects ++ _ = _
    rw [show (mergeOne idx m meta).projects
        = m.projects ++ [projEntryOf idx meta] from rfl]
    rw [List.append_assoc]
    rfl

lemma mergeGo_services : ∀ (docs : List MetaDoc) (idx : Nat) (m : Merged),
    (mergeGo idx m docs).services = m.services ++
      (mapWithIdx (fun i meta => meta.services.map (tagSvc (pnameJ i meta))) idx docs).flatten := by
  intro docs
  induction docs with
  | nil => intro idx m; rw [mergeGo, mapWithIdx, List.flatten_nil, List.append_nil]
  | cons meta rest ih =>
    intro idx m
    rw [mergeGo, ih, mapWithIdx, List.flatten_cons]
    show (mergeOne idx m meta).services ++ _ = _
    rw [show (mergeOne idx m meta).services
        = m.services ++ meta.services.map (tagSvc (pnameJ idx meta)) from rfl]
    rw [List.append_assoc]

/-- Claim C7: for every non-empty document list, the merged document has
exactly one `projects` entry per input document, in input order (name,
root, service count), and its `services` list is the in-order concatenation
of every input document's services, each tagged by `tagSvc`: the name (when
present) becomes `"<projectName>/<name>"` and a `project` field records the
origin project. -/
theorem merge_metadata_shape (docs : List MetaDoc) (hne : docs ≠ []) :
    (merge_metadata docs).projects.length = docs.length ∧
    (merge_metadata docs).projects = mapWithIdx projEntryOf 0 docs ∧
    (merge_metadata docs).services =
      (mapWithIdx (fun i meta => meta.services.map (tagSvc (pnameJ i meta))) 0 docs).flatten := by
  refine ⟨?_, ?_, ?_⟩
  · rw [merge_metadata, mergeGo_projects, emptyMerged]
    rw [List.nil_append, mapWithIdx_length]
  · rw [merge_metadata, mergeGo_projects, emptyMerged, List.nil_append]
  · rw [merge_metadata, mergeGo_services, emptyMerged, List.nil_append]

def sampleDocA : MetaDoc :=
  { projectName := some (J.str "alpha")
    projectRoot := some (J.str "srv/alpha")
    services := [[("name", J.str "api"), ("language", J.str "python")]]
    infrastructure_aws := [("s3", J.bool true)]
    infrastructure_external := []
    deployment := [("buildTool", J.str "pip")]
    findings := [] }

def sampleDocB : MetaDoc :=
  { projectName := none
    projectRoot := none
    services := [[("name", J.str "web")], [("language", J.str "java")]]
    infrastructure_aws := []
    infrastructure_external := [J.str "stripe"]
    deployment := []
    findings := [[("type", J.str "warning")]] }

/-- Witness for `merge_metadata_shape` on two concrete documents: two project
entries in order, and three tagged services — names prefixed with the origin
project (`alpha/api`, `project-2/web`), every service carrying a `project`
field. -/
theorem merge_metadata_shape_witness :
    (merge_metadata [sampleDocA, sampleDocB]).projects.length = 2 ∧
    (merge_metadata [sampleDocA, sampleDocB]).services =
      [[("name", J.str "alpha/api"), ("language", J.str "python"),
        ("project", J.str "alpha")],
       [("name", J.str "project-2/web"), ("project", J.str "project-2")],
       [("language", J.str "java"), ("project", J.str "project-2")]] := by
  have h := merge_metadata_shape [sampleDocA, sampleDocB] (by simp)
  constructor
  · rw [h.1]
    rfl
  · rw [h.2.2]
    rfl


-- ====== The collection loop and handler pipeline (claims C2, C9) ======

/-- One collected file summary (path relative to the project root,
extension-derived language hint, sanitized content). -/
structure Summary where
  path : Text
  languageHint : Text
  content : Text

/-- Project-root-relative path (lines 484-487 of the handler). -/
def relPath (root name : Text) : Text :=
  if root ≠ (".").data ∧ startsWithT name (root ++ [('/')]) = true then
    name.drop (root.length + 1)
  else name

/-- The per-candidate allocation loop of `lambda_handler` (lines 468-496).
`csub` models the `COMMENT_RE` substitutions and `read` the decoded contents
of `zip_ref.read(name)`; `tf`/`ub` carry `total_files_collected` and
`used_total_bytes`.  The source's `if remain <= 0: break` is unreachable:
the loop head has already broken when `ub ≥ MAX_TOTAL_BYTES`, so here the
remainder is positive. -/
def collectGo (csub : Text → Text → Text) (read : Text → Text) (root : Text) :
    List Text → Nat → Nat → List Summary × Nat × Nat
  | [], tf, ub => ([], tf, ub)
  | name :: rest, tf, ub =>
    if ub ≥ MAX_TOTAL_BYTES then ([], tf, ub)
    else
      let snippet := strip_and_cap_bytes csub (read name) (splitextExt name)
      let size := encLen snippet
      if ub + size > MAX_TOTAL_BYTES then
        let snippet2 := takeBytes (MAX_TOTAL_BYTES - ub) snippet ++ TRUNC_MARKER
        let size2 := encLen snippet2
        let out := collectGo csub read root rest (tf + 1) (ub + size2)
        (⟨relPath root name, lstripChar '.' (splitextExt name), snippet2⟩ :: out.1, out.2)
      else
        let out := collectGo csub read root rest (tf + 1) (ub + size)
        (⟨relPath root name, lstripChar '.' (splitextExt name), snippet⟩ :: out.1, out.2)

/-- One project of the handler loop (lines 443-496): filter the project's
files to signal candidates, rank them, cut the list at the per-project and
remaining-global file quota, and run the allocation loop. -/
def processProject (csub : Text → Text → Text) (read : Text → Text)
    (root : Text) (files : List Text) (tf ub : Nat) : List Summary × Nat × Nat :=
  let candidates := sortByScoreDesc (files.filter is_signalB)
  let project_limit := min MAX_FILES_PER_PROJECT (MAX_TOTAL_FILES - tf)
  collectGo csub read root (candidates.take project_limit) tf ub

/-- The outer project loop (lines 438-529).  `analyze pname root summaries`
models the Bedrock prompt build, `safe_invoke_bedrock`, the code-fence strip
and `json.loads` (lines 501-529): `some doc` is a successfully parsed
document, `none` the per-project exception path that logs and continues.
Lines 521-522 then stamp the project name and root onto the document. -/
def processAll (csub : Text → Text → Text) (read : Text → Text)
    (analyze : Text → Text → List Summary → Option MetaDoc) :
    List (Text × List Text) → List MetaDoc → Nat → Nat → List MetaDoc × Nat × Nat
  | [], acc, tf, ub => (acc, tf, ub)
  | (root, files) :: rest, acc, tf, ub =>
    if tf ≥ MAX_TOTAL_FILES then (acc, tf, ub)
    else
      let pname := if root = (".").data then ("root").data else basename root
      let res := processProject csub read root files tf ub
      let acc2 :=
        if res.1.isEmpty then acc
        else
          match analyze pname root res.1 with
          | some doc => acc ++ [{ doc with
              projectName := some (J.str (String.mk pname)),
              projectRoot := some (J.str (String.mk root)) }]
          | none => acc
      processAll csub read analyze rest acc2 res.2.1 res.2.2

/-- The success response of `lambda_handler` (lines 559-567); `message` is
the body's `message` field. -/
structure Resp where
  statusCode : Nat
  message : String
  projectsAnalyzed : Nat
  filesCollected : Nat
deriving DecidableEq

/-- `lambda_handler` after request validation and S3 download (lines
421-567): filter the archive entries, detect the project roots, collect and
analyze per project, and answer 200 with the project and file counts.  (The
`metadata.json` upload is an external effect and is skipped entirely when no
document was produced.) -/
def lambdaHandlerCore (csub : Text → Text → Text) (read : Text → Text)
    (analyze : Text → Text → List Summary → Option MetaDoc)
    (all_paths : List Text) : Resp :=
  let filtered := all_paths.filter
    (fun n => !(endsWithT n (("/").data)) && !(should_skip_path n))
  let project_roots := detect_project_roots filtered
  let res := processAll csub read analyze project_roots [] 0 0
  ⟨200, "성공", res.1.length, res.2.1⟩


-- ====== Claim C9 ======

lemma processAll_all_failed (csub : Text → Text → Text) (read : Text → Text)
    (analyze : Text → Text → List Summary → Option MetaDoc)
    (hfail : ∀ pn rt s, analyze pn rt s = none) :
    ∀ (projects : List (Text × List Text)) (acc : List MetaDoc) (tf ub : Nat),
      (processAll csub read analyze projects acc tf ub).1 = acc := by
  intro projects
  induction projects with
  | nil => intro acc tf ub; rfl
  | cons proj rest ih =>
    intro acc tf ub
    obtain ⟨root, files⟩ := proj
    rw [processAll]
    by_cases h : tf ≥ MAX_TOTAL_FILES
    · rw [if_pos h]
    · rw [if_neg h]
      dsimp only
      rw [hfail]
      by_cases he : (processProject csub read root files tf ub).1.isEmpty
      · rw [if_pos he]
        exact ih acc _ _
      · rw [if_neg he]
        exact ih acc _ _

/-- Claim C9: when every per-project analysis fails (the analysis oracle
produces no usable document for any project) and no storage or unhandled
error occurs — storage is skipped entirely here, since with no documents the
`if metadata_list:` branch is not taken — the handler still answers a
200-status success response reporting zero projects analyzed. -/
theorem zero_projects_still_ok (csub : Text → Text → Text) (read : Text → Text)
    (analyze : Text → Text → List Summary → Option MetaDoc)
    (all_paths : List Text)
    (hfail : ∀ pn rt s, analyze pn rt s = none) :
    (lambdaHandlerCore csub read analyze all_paths).statusCode = 200 ∧
    (lambdaHandlerCore csub read analyze all_paths).projectsAnalyzed = 0 ∧
    (lambdaHandlerCore csub read analyze all_paths).message = "성공" := by
  refine ⟨rfl, ?_, rfl⟩
  show (processAll csub read analyze _ [] 0 0).1.length = 0
  rw [processAll_all_failed csub read analyze hfail]
  rfl

/-- Witness for `zero_projects_still_ok`: a one-project archive whose
analysis fails still gets a 200 with zero projects. -/
theorem zero_projects_still_ok_witness :
    (lambdaHandlerCore (fun _ t => t) (fun _ => ("print(1)").data)
      (fun _ _ _ => none) [("pkg/requirements.txt").data]).statusCode = 200 ∧
    (lambdaHandlerCore (fun _ t => t) (fun _ => ("print(1)").data)
      (fun _ _ _ => none) [("pkg/requirements.txt").data]).projectsAnalyzed = 0 ∧
    (lambdaHandlerCore (fun _ t => t) (fun _ => ("print(1)").data)
      (fun _ _ _ => none) [("pkg/requirements.txt").data]).message = "성공" :=
  zero_projects_still_ok (fun _ t => t) (fun _ => ("print(1)").data)
    (fun _ _ _ => none) [("pkg/requirements.txt").data] (fun _ _ _ => rfl)


-- ====== Claim C2: invariants of the allocation loop ======

lemma collectGo_exhausted (csub : Text → Text → Text) (read : Text → Text) (root : Text)
    (cands : List Text) (tf ub : Nat) (h : ub ≥ MAX_TOTAL_BYTES) :
    collectGo csub read root cands tf ub = ([], tf, ub) := by
  cases cands with
  | nil => rfl
  | cons name rest => rw [collectGo, if_pos h]

lemma collectGo_bytes (csub : Text → Text → Text) (read : Text → Text) (root : Text) :
    ∀ (cands : List Text) (tf ub : Nat), ub ≤ MAX_TOTAL_BYTES + encLen TRUNC_MARKER →
    (collectGo csub read root cands tf ub).2.2 ≤ MAX_TOTAL_BYTES + encLen TRUNC_MARKER := by
  intro cands
  induction cands with
  | nil => intro tf ub h; exact h
  | cons name rest ih =>
    intro tf ub h
    by_cases hub : ub ≥ MAX_TOTAL_BYTES
    · rw [collectGo, if_pos hub]
      exact h
    · rw [collectGo, if_neg hub]
      dsimp only
      by_cases hov : ub + encLen (strip_and_cap_bytes csub (read name) (splitextExt name)) >
          MAX_TOTAL_BYTES
      · rw [if_pos hov]
        dsimp only
        refine ih _ _ ?_
        have h1 := encLen_takeBytes (MAX_TOTAL_BYTES - ub)
          (strip_and_cap_bytes csub (read name) (splitextExt name))
        rw [encLen_append]
        omega
      · rw [if_neg hov]
        dsimp only
        exact ih _ _ (by omega)

lemma collectGo_files (csub : Text → Text → Text) (read : Text → Text) (root : Text) :
    ∀ (cands : List Text) (tf ub : Nat),
    (collectGo csub read root cands tf ub).2.1 ≤ tf + cands.length := by
  intro cands
  induction cands with
  | nil => intro tf ub; exact Nat.le_add_right tf 0
  | cons name rest ih =>
    intro tf ub
    rw [List.length_cons]
    by_cases hub : ub ≥ MAX_TOTAL_BYTES
    · rw [collectGo, if_pos hub]
      exact Nat.le_add_right tf (rest.length + 1)
    · rw [collectGo, if_neg hub]
      dsimp only
      by_cases hov : ub + encLen (strip_and_cap_bytes csub (read name) (splitextExt name)) >
          MAX_TOTAL_BYTES
      · rw [if_pos hov]
        dsimp only
        have := ih (tf + 1) (ub + encLen (takeBytes (MAX_TOTAL_BYTES - ub)
          (strip_and_cap_bytes csub (read name) (splitextExt name)) ++ TRUNC_MARKER))
        omega
      · rw [if_neg hov]
        dsimp only
        have := ih (tf + 1) (ub + encLen (strip_and_cap_bytes csub (read name) (splitextExt name)))
        omega

lemma processProject_counters (csub : Text → Text → Text) (read : Text → Text)
    (root : Text) (files : List Text) (tf ub : Nat) :
    (processProject csub read root files tf ub).2.1 ≤ tf + (MAX_TOTAL_FILES - tf) ∧
    (ub ≤ MAX_TOTAL_BYTES + encLen TRUNC_MARKER →
      (processProject csub read root files tf ub).2.2 ≤
        MAX_TOTAL_BYTES + encLen TRUNC_MARKER) := by
  constructor
  · have h1 := collectGo_files csub read root
      ((sortByScoreDesc (files.filter is_signalB)).take
        (min MAX_FILES_PER_PROJECT (MAX_TOTAL_FILES - tf))) tf ub
    have h2 : ((sortByScoreDesc (files.filter is_signalB)).take
        (min MAX_FILES_PER_PROJECT (MAX_TOTAL_FILES - tf))).length ≤
        min MAX_FILES_PER_PROJECT (MAX_TOTAL_FILES - tf) := by
      rw [List.length_take]
      exact Nat.min_le_left _ _
    have h3 : min MAX_FILES_PER_PROJECT (MAX_TOTAL_FILES - tf) ≤ MAX_TOTAL_FILES - tf :=
      Nat.min_le_right _ _
    show (collectGo csub read root _ tf ub).2.1 ≤ _
    omega
  · intro h
    exact collectGo_bytes csub read root _ tf ub h

lemma processAll_files (csub : Text → Text → Text) (read : Text → Text)
    (analyze : Text → Text → List Summary → Option MetaDoc) :
    ∀ (projects : List (Text × List Text)) (acc : List MetaDoc) (tf ub : Nat),
    tf ≤ MAX_TOTAL_FILES →
    (processAll csub read analyze projects acc tf ub).2.1 ≤ MAX_TOTAL_FILES := by
  intro projects
  induction projects with
  | nil => intro acc tf ub h; exact h
  | cons proj rest ih =>
    intro acc tf ub h
    obtain ⟨root, files⟩ := proj
    rw [processAll]
    by_cases hb : tf ≥ MAX_TOTAL_FILES
    · rw [if_pos hb]
      exact h
    · rw [if_neg hb]
      dsimp only
      refine ih _ _ _ ?_
      have h1 := (processProject_counters csub read root files tf ub).1
      omega

lemma processAll_bytes (csub : Text → Text → Text) (read : Text → Text)
    (analyze : Text → Text → List Summary → Option MetaDoc) :
    ∀ (projects : List (Text × List Text)) (acc : List MetaDoc) (tf ub : Nat),
    ub ≤ MAX_TOTAL_BYTES + encLen TRUNC_MARKER →
    (processAll csub read analyze projects acc tf ub).2.2 ≤
      MAX_TOTAL_BYTES + encLen TRUNC_MARKER := by
  intro projects
  induction projects with
  | nil => intro acc tf ub h; exact h
  | cons proj rest ih =>
    intro acc tf ub h
    obtain ⟨root, files⟩ := proj
    rw [processAll]
    by_cases hb : tf ≥ MAX_TOTAL_FILES
    · rw [if_pos hb]
      exact h
    · rw [if_neg hb]
      dsimp only
      exact ih _ _ _ ((processProject_counters csub read root files tf ub).2 h)

lemma processAll_exhausted (csub : Text → Text → Text) (read : Text → Text)
    (analyze : Text → Text → List Summary → Option MetaDoc) :
    ∀ (projects : List (Text × List Text)) (acc : List MetaDoc) (tf ub : Nat),
    ub ≥ MAX_TOTAL_BYTES →
    processAll csub read analyze projects acc tf ub = (acc, tf, ub) := by
  intro projects
  induction projects with
  | nil => intro acc tf ub _; rfl
  | cons proj rest ih =>
    intro acc tf ub h
    obtain ⟨root, files⟩ := proj
    rw [processAll]
    by_cases hb : tf ≥ MAX_TOTAL_FILES
    · rw [if_pos hb]
    · rw [if_neg hb]
      dsimp only
      have hres : processProject csub read root files tf ub = ([], tf, ub) := by
        unfold processProject
        exact collectGo_exhausted csub read root _ tf ub h
      rw [hres]
      exact ih _ _ _ h

/-- Claim C2 (amended): over every allocation run starting from zero
counters, the total number of accepted files never exceeds
`MAX_TOTAL_FILES`, and the total accepted UTF-8 byte count never exceeds
`MAX_TOTAL_BYTES` *plus the byte length of the truncation marker* — a
candidate that would overflow the remaining byte budget is cut to the
remainder on a character boundary and then the 16-byte marker is appended
after the cut, so the byte total can overshoot the cap itself (see the
counterexample); and once the byte budget is reached or exceeded the
allocation accepts no further file in any remaining project. -/
theorem allocation_caps (csub : Text → Text → Text) (read : Text → Text)
    (analyze : Text → Text → List Summary → Option MetaDoc)
    (projects : List (Text × List Text)) :
    (processAll csub read analyze projects [] 0 0).2.1 ≤ MAX_TOTAL_FILES ∧
    (processAll csub read analyze projects [] 0 0).2.2 ≤
      MAX_TOTAL_BYTES + encLen TRUNC_MARKER ∧
    (∀ (rest : List (Text × List Text)) (acc : List MetaDoc) (tf ub : Nat),
      ub ≥ MAX_TOTAL_BYTES →
      processAll csub read analyze rest acc tf ub = (acc, tf, ub)) :=
  ⟨processAll_files csub read analyze projects [] 0 0 (Nat.zero_le _),
   processAll_bytes csub read analyze projects [] 0 0 (Nat.zero_le _),
   fun rest acc tf ub h => processAll_exhausted csub read analyze rest acc tf ub h⟩

/-- Witness for `allocation_caps`: with the byte budget already exhausted,
a further project contributes nothing. -/
theorem allocation_caps_witness :
    processAll (fun _ t => t) (fun _ => []) (fun _ _ _ => none)
      [(((".").data), [("a.tf").data])] [] 0 MAX_TOTAL_BYTES
      = ([], 0, MAX_TOTAL_BYTES) :=
  (allocation_caps (fun _ t => t) (fun _ => []) (fun _ _ _ => none) []).2.2
    [(((".").data), [("a.tf").data])] [] 0 MAX_TOTAL_BYTES (le_refl _)


-- ====== Claim C2: the byte cap is overshot on a concrete 22-file archive ======

/-- A raw file of 8001 `a`-lines (16001 bytes once decoded). -/
def bigRaw : Text := aNlBlock 8000 ++ [('a')]

/-- Its sanitized snippet: per-file-capped at 16000 bytes plus the 16-byte
marker. -/
def bigSnippet : Text := aNlBlock 8000 ++ TRUNC_MARKER

def readBig : Text → Text := fun _ => bigRaw

lemma sanitize_big :
    strip_and_cap_bytes (fun _ t => t) bigRaw ((".tf").data) = bigSnippet := by
  show capFileBytes (minifyText (redact_secrets (aNlBlock 8000 ++ [('a')]))) = bigSnippet
  rw [redact_aNl 8000, minifyText_aNl 8000, capFileBytes]
  have hlen : encLen (aNlBlock 8000 ++ [('a')]) = 16001 := by
    rw [encLen_append, aNlBlock_encLen]
    rfl
  rw [if_pos (by rw [hlen]; decide)]
  rw [show MAX_BYTES_PER_FILE = 16000 from rfl,
    takeBytes_width1 (aNlBlock 8000) 16000 [('a')] (aNlBlock_width1 8000)
      (by rw [aNlBlock_length])]
  rw [show (16000 : Nat) = (aNlBlock 8000).length from by rw [aNlBlock_length],
    List.take_length]
  rfl

lemma encLen_bigSnippet : encLen bigSnippet = 16016 := by
  rw [bigSnippet, encLen_append, aNlBlock_encLen]
  rfl

lemma encLen_take_aNlBlock (n m : Nat) (h : n ≤ 2 * m) :
    encLen (List.take n (aNlBlock m)) = n := by
  rw [encLen_width1 _ (fun c hc => aNlBlock_width1 m c (List.mem_of_mem_take hc)),
    List.length_take, aNlBlock_length]
  omega

lemma collectGo_cons_fits (csub : Text → Text → Text) (read : Text → Text) (root : Text)
    (name : Text) (rest : List Text) (tf ub : Nat)
    (hub : ¬ ub ≥ MAX_TOTAL_BYTES)
    (hfits : ¬ (ub + encLen (strip_and_cap_bytes csub (read name) (splitextExt name)) >
      MAX_TOTAL_BYTES)) :
    (collectGo csub read root (name :: rest) tf ub).2 =
    (collectGo csub read root rest (tf + 1)
      (ub + encLen (strip_and_cap_bytes csub (read name) (splitextExt name)))).2 := by
  rw [collectGo, if_neg hub]
  dsimp only
  rw [if_neg hfits]

lemma collectGo_cons_over (csub : Text → Text → Text) (read : Text → Text) (root : Text)
    (name : Text) (rest : List Text) (tf ub : Nat)
    (hub : ¬ ub ≥ MAX_TOTAL_BYTES)
    (hover : ub + encLen (strip_and_cap_bytes csub (read name) (splitextExt name)) >
      MAX_TOTAL_BYTES) :
    (collectGo csub read root (name :: rest) tf ub).2 =
    (collectGo csub read root rest (tf + 1)
      (ub + encLen (takeBytes (MAX_TOTAL_BYTES - ub)
        (strip_and_cap_bytes csub (read name) (splitextExt name)) ++ TRUNC_MARKER))).2 := by
  rw [collectGo, if_neg hub]
  dsimp only
  rw [if_pos hover]

/-- One fully-accepted candidate of the counterexample run. -/
lemma collectGo_step_full (name : Text) (rest : List Text) (tf ub : Nat)
    (hname : splitextExt name = ((".tf").data))
    (hfit : ub + 16016 ≤ MAX_TOTAL_BYTES) :
    (collectGo (fun _ t => t) readBig ((".").data) (name :: rest) tf ub).2 =
    (collectGo (fun _ t => t) readBig ((".").data) rest (tf + 1) (ub + 16016)).2 := by
  have hs : strip_and_cap_bytes (fun _ t => t) (readBig name) (splitextExt name) = bigSnippet := by
    rw [hname]; exact sanitize_big
  have h1 := collectGo_cons_fits (fun _ t => t) readBig ((".").data) name rest tf ub
    (by omega) (by rw [hs, encLen_bigSnippet]; omega)
  rw [hs, encLen_bigSnippet] at h1
  exact h1

/-- The truncated final candidate of the counterexample run. -/
lemma collectGo_step_trunc (name : Text) (rest : List Text) (tf ub : Nat)
    (hname : splitextExt name = ((".tf").data))
    (hub : ub < MAX_TOTAL_BYTES)
    (hover : ub + 16016 > MAX_TOTAL_BYTES)
    (hrem : MAX_TOTAL_BYTES - ub ≤ 16000) :
    (collectGo (fun _ t => t) readBig ((".").data) (name :: rest) tf ub).2 =
    (collectGo (fun _ t => t) readBig ((".").data) rest (tf + 1)
      (ub + (MAX_TOTAL_BYTES - ub + 16))).2 := by
  have hs : strip_and_cap_bytes (fun _ t => t) (readBig name) (splitextExt name) = bigSnippet := by
    rw [hname]; exact sanitize_big
  have h1 := collectGo_cons_over (fun _ t => t) readBig ((".").data) name rest tf ub
    (by omega) (by rw [hs, encLen_bigSnippet]; omega)
  rw [hs] at h1
  rw [show takeBytes (MAX_TOTAL_BYTES - ub) bigSnippet
      = List.take (MAX_TOTAL_BYTES - ub) (aNlBlock 8000) from by
    rw [bigSnippet]
    exact takeBytes_width1 (aNlBlock 8000) (MAX_TOTAL_BYTES - ub) TRUNC_MARKER
      (aNlBlock_width1 8000) (by rw [aNlBlock_length]; omega)] at h1
  rw [encLen_append, encLen_take_aNlBlock (MAX_TOTAL_BYTES - ub) 8000 (by omega),
    show encLen TRUNC_MARKER = 16 from rfl] at h1
  exact h1

/-- A run of candidates that all fit entirely. -/
lemma collectGo_run_full : ∀ (names : List Text) (tf ub : Nat) (rest : List Text),
    (∀ n ∈ names, splitextExt n = ((".tf").data)) →
    ub + 16016 * names.length ≤ MAX_TOTAL_BYTES →
    (collectGo (fun _ t => t) readBig ((".").data) (names ++ rest) tf ub).2 =
    (collectGo (fun _ t => t) readBig ((".").data) rest (tf + names.length)
      (ub + 16016 * names.length)).2 := by
  intro names
  induction names with
  | nil =>
    intro tf ub rest _ _
    simp
  | cons n ns ih =>
    intro tf ub rest hext hfit
    simp only [List.length_cons] at hfit ⊢
    rw [List.cons_append,
      collectGo_step_full n (ns ++ rest) tf ub (hext n (List.mem_cons_self _ _))
        (by omega),
      ih (tf + 1) (ub + 16016) rest (fun m hm => hext m (List.mem_cons_of_mem _ hm))
        (by omega)]
    have e1 : tf + 1 + ns.length = tf + (ns.length + 1) := by omega
    have e2 : ub + 16016 + 16016 * ns.length = ub + 16016 * (ns.length + 1) := by ring
    rw [e1, e2]

def cxPaths : List Text :=
  [("f01.tf").data, ("f02.tf").data, ("f03.tf").data, ("f04.tf").data,
   ("f05.tf").data, ("f06.tf").data, ("f07.tf").data, ("f08.tf").data,
   ("f09.tf").data, ("f10.tf").data, ("f11.tf").data, ("f12.tf").data,
   ("f13.tf").data, ("f14.tf").data, ("f15.tf").data, ("f16.tf").data,
   ("f17.tf").data, ("f18.tf").data, ("f19.tf").data, ("f20.tf").data,
   ("f21.tf").data, ("f22.tf").data]

def cxFirst : List Text :=
  [("f01.tf").data, ("f02.tf").data, ("f03.tf").data, ("f04.tf").data,
   ("f05.tf").data, ("f06.tf").data, ("f07.tf").data, ("f08.tf").data,
   ("f09.tf").data, ("f10.tf").data, ("f11.tf").data, ("f12.tf").data,
   ("f13.tf").data, ("f14.tf").data, ("f15.tf").data, ("f16.tf").data,
   ("f17.tf").data, ("f18.tf").data, ("f19.tf").data, ("f20.tf").data,
   ("f21.tf").data]

/-- Counter evolution ignores the accumulated metadata list. -/
lemma processAll_counters_acc (csub : Text → Text → Text) (read : Text → Text)
    (analyze : Text → Text → List Summary → Option MetaDoc) :
    ∀ (projects : List (Text × List Text)) (acc acc2 : List MetaDoc) (tf ub : Nat),
      (processAll csub read analyze projects acc tf ub).2 =
      (processAll csub read analyze projects acc2 tf ub).2 := by
  intro projects
  induction projects with
  | nil => intro acc acc2 tf ub; rfl
  | cons proj rest ih =>
    intro acc acc2 tf ub
    obtain ⟨root, files⟩ := proj
    rw [processAll, processAll]
    by_cases h : tf ≥ MAX_TOTAL_FILES
    · rw [if_pos h, if_pos h]
    · rw [if_neg h, if_neg h]
      dsimp only
      exact ih _ _ _ _

lemma processAll_cons_counters (csub : Text → Text → Text) (read : Text → Text)
    (analyze : Text → Text → List Summary → Option MetaDoc)
    (root : Text) (files : List Text) (rest : List (Text × List Text))
    (acc : List MetaDoc) (tf ub : Nat) (h : ¬ tf ≥ MAX_TOTAL_FILES) :
    (processAll csub read analyze ((root, files) :: rest) acc tf ub).2 =
    (processAll csub read analyze rest []
      (processProject csub read root files tf ub).2.1
      (processProject csub read root files tf ub).2.2).2 := by
  rw [processAll, if_neg h]
  dsimp only
  exact processAll_counters_acc csub read analyze rest _ [] _ _

set_option maxRecDepth 4000 in
/-- Counterexample to claim C2 as stated: an archive of 22 Terraform files,
each decoding to 8001 `a`-lines, is detected as the single sentinel project;
the first 21 snippets are accepted in full (21 × 16016 = 336336 bytes), the
22nd overflows the remaining budget of 13664 bytes and is truncated to that
remainder *plus* the 16-byte marker — the run ends having accepted 350016
bytes, which exceeds the global cap `MAX_TOTAL_BYTES = 350000`. -/
theorem allocation_caps_cx :
    (processAll (fun _ t => t) readBig (fun _ _ _ => none)
      (detect_project_roots cxPaths) [] 0 0).2.2 = 350016 ∧
    350016 > MAX_TOTAL_BYTES := by
  constructor
  · have e0 : detect_project_roots cxPaths = [(((".").data), cxPaths)] := by decide
    have hsort : (sortByScoreDesc (cxPaths.filter is_signalB)).take
        (min MAX_FILES_PER_PROJECT (MAX_TOTAL_FILES - 0)) = cxPaths := by decide
    have e4 : processProject (fun _ t => t) readBig ((".").data) cxPaths 0 0
        = collectGo (fun _ t => t) readBig ((".").data) cxPaths 0 0 := by
      rw [processProject]
      dsimp only
      rw [hsort]
    have hsp : cxPaths = cxFirst ++ [("f22.tf").data] := by decide
    have e5 := collectGo_run_full cxFirst 0 0 [("f22.tf").data] (by decide) (by decide)
    have e6 := collectGo_step_trunc (("f22.tf").data) [] 21 336336 (by decide) (by decide)
      (by decide) (by decide)
    have hch : (processAll (fun _ t => t) readBig (fun _ _ _ => none)
        (detect_project_roots cxPaths) [] 0 0).2 = (22, 350016) := by
      rw [e0, processAll_cons_counters (fun _ t => t) readBig (fun _ _ _ => none)
        ((".").data) cxPaths [] [] 0 0 (by decide)]
      rw [processAll]
      dsimp only
      rw [Prod.mk.eta, e4, hsp, e5,
        show (0 + cxFirst.length : Nat) = 21 from by decide,
        show (0 + 16016 * cxFirst.length : Nat) = 336336 from by decide,
        e6]
      decide
    have hfin := congrArg Prod.snd hch
    exact hfin
  · decide

end CodeAnalysis
